import Mathlib

/-!
Verification development for the timetable generator (src/projet1.py).

The Python program reads a curriculum JSON file and a rooms JSON file,
extracts a catalogue (classes, courses, rooms, teachers, class programmes,
course teacher lists, course credits), builds a CP-SAT model (boolean
assignment variables, linking variables, four families of hard constraints
and a weighted objective), solves it, and converts the solver assignment
into a per-class weekly timetable.  Below, every Python structure is given
a direct executable Lean counterpart: Python dicts become association
lists with Python assignment semantics (`dset` replaces the value of an
existing key in place, otherwise appends), Python lists become Lean lists,
and the fallible pieces (string fields that may not be strings, credit
fields that may fail integer conversion) become small inductive types.
-/

namespace Projet1

/-- A JSON field value that the code passes to `clean_string`: either an
actual string or any non-string value (int, null, list, ...), which
`clean_string` maps to the empty string. -/
inductive PyVal where
  | str (s : String)
  | nonstr
deriving DecidableEq, Repr

/-- Python `str.strip()`: remove leading and trailing whitespace, written
on the character list so that the kernel can evaluate it. -/
def pyStrip (s : String) : String :=
  ⟨((s.data.dropWhile Char.isWhitespace).reverse.dropWhile Char.isWhitespace).reverse⟩

/-- Embeds `clean_string` (src/projet1.py lines 45-49): `strip` a string,
and return `""` for any non-string input. -/
def clean_string : PyVal → String
  | .str s => pyStrip s
  | .nonstr => ""

/-- The outcome of the `credit` field of a course descriptor, abstracted by
what `int(subject.get('credit', 0))` does with it: the field is absent
(`missing`, so `int(0)` is taken), or present and convertible to an integer
(`num n`), or present but raising on conversion (`bad`). -/
inductive CreditField where
  | missing
  | num (n : Int)
  | bad
deriving DecidableEq, Repr

/-- Embeds the `try: int(subject.get('credit', 0)) except: 0` logic of
src/projet1.py lines 71-74. -/
def parseCredit : CreditField → Int
  | .missing => 0
  | .num n => n
  | .bad => 0

/-- One course descriptor of a semester subject list: the raw `code` field,
the credit field, and the optional `Course Lecturer` and
`Assitant lecturer` (sic) name lists. -/
structure Subject where
  code : PyVal
  credit : CreditField
  courseLecturer : Option (List PyVal)
  assistantLecturer : Option (List PyVal)
deriving DecidableEq, Repr

/-- The two JSON inputs: `subjects_data['niveau']` as a list of
(level, list of (semester, subjects)) pairs — JSON object keys are unique,
but the embedding allows any list — and `rooms_data['Informatique']` as the
list of raw `num` fields of the room records. -/
structure InputData where
  niveau : List (String × List (String × List Subject))
  informatique : List PyVal
deriving DecidableEq, Repr

/-- Python dict lookup returning `none` when the key is absent. -/
def dfind {α β : Type} [DecidableEq α] (m : List (α × β)) (k : α) : Option β :=
  (m.find? (fun e => decide (e.1 = k))).map Prod.snd

/-- Python dict lookup with a default value (`d.get(k, dflt)`). -/
def dget {α β : Type} [DecidableEq α] (m : List (α × β)) (k : α) (dflt : β) : β :=
  (dfind m k).getD dflt

/-- Python dict assignment `m[k] = v`: replace the value of an existing key
in place, otherwise append the new pair at the end. -/
def dset {α β : Type} [DecidableEq α] (m : List (α × β)) (k : α) (v : β) : List (α × β) :=
  if m.any (fun e => decide (e.1 = k)) then
    m.map (fun e => if e.1 = k then (k, v) else e)
  else
    m ++ [(k, v)]

/-- The catalogue state built by `extract_data`: the lists `L` (classes),
`C` (courses), `R` (rooms), `T` (teachers) and the dicts `programme`
(class name to course list), `course_teachers` (course code to teacher
list) and `course_credits` (course code to credit). -/
structure Catalogue where
  L : List String
  C : List String
  R : List String
  T : List String
  programme : List (String × List String)
  courseTeachers : List (String × List String)
  courseCredits : List (String × Int)
deriving DecidableEq, Repr

def emptyCatalogue : Catalogue := ⟨[], [], [], [], [], [], []⟩

/-- The sentinel teacher string `"ENSEIGNANT_DEFAUT"` of src/projet1.py
line 54. -/
def default_teacher : String := "ENSEIGNANT_DEFAUT"

/-- One iteration of the lecturer loops of src/projet1.py lines 83-90 and
94-101: clean the name; if non-blank, add it to `T` and to the course
teacher list when not already present, and record that a teacher was
found. -/
def addLecturer (code : String) (acc : Catalogue × Bool) (raw : PyVal) : Catalogue × Bool :=
  let lecturer := clean_string raw
  if lecturer = "" then acc
  else
    let st := acc.1
    let st := if lecturer ∈ st.T then st else { st with T := st.T ++ [lecturer] }
    let cur := dget st.courseTeachers code []
    let st :=
      if lecturer ∈ cur then st
      else { st with courseTeachers := dset st.courseTeachers code (cur ++ [lecturer]) }
    (st, true)

/-- Processes one optional lecturer field (the `if 'Course Lecturer' in
subject:` / `if 'Assitant lecturer' in subject:` blocks). -/
def processLects (code : String) (acc : Catalogue × Bool) (field : Option (List PyVal)) :
    Catalogue × Bool :=
  match field with
  | none => acc
  | some ls => ls.foldl (addLecturer code) acc

/-- The `if course_code not in self.C:` block of src/projet1.py
lines 68-74: register a new course code with its parsed credit and an
empty teacher list. -/
def registerCourse (st : Catalogue) (course_code : String) (credit : CreditField) : Catalogue :=
  if course_code ∈ st.C then st
  else { st with
           C := st.C ++ [course_code],
           courseTeachers := dset st.courseTeachers course_code [],
           courseCredits := dset st.courseCredits course_code (parseCredit credit) }

/-- `self.programme[class_name].append(course_code)` (src/projet1.py
line 76). -/
def appendProgramme (st : Catalogue) (class_name course_code : String) : Catalogue :=
  { st with programme := dset st.programme class_name
              (dget st.programme class_name [] ++ [course_code]) }

/-- The `if not teachers_found:` block of src/projet1.py lines 104-107:
add the sentinel teacher to `T` if absent, and append it to the course
teacher list unconditionally. -/
def sentinelStep (st : Catalogue) (course_code : String) : Catalogue :=
  let st := if default_teacher ∈ st.T then st
            else { st with T := st.T ++ [default_teacher] }
  { st with courseTeachers := dset st.courseTeachers course_code
              (dget st.courseTeachers course_code [] ++ [default_teacher]) }

/-- Processes one course descriptor (src/projet1.py lines 63-107): skip a
blank code; register a new code in `C` with its credit and an empty
teacher list; append the code to the class programme; process both
lecturer fields; append the sentinel teacher when no lecturer was found. -/
def processSubject (class_name : String) (st : Catalogue) (subject : Subject) : Catalogue :=
  let course_code := clean_string subject.code
  if course_code = "" then st
  else
    let st := registerCourse st course_code subject.credit
    let st := appendProgramme st class_name course_code
    let acc := processLects course_code (st, false) subject.courseLecturer
    let acc := processLects course_code acc subject.assistantLecturer
    if acc.2 then acc.1 else sentinelStep acc.1 course_code

/-- Processes one semester of a level (src/projet1.py lines 58-107): build
the class name, append it to `L`, reset its programme to `[]`, then process
its subjects in order. -/
def processSemester (level : String) (st : Catalogue) (sem : String × List Subject) : Catalogue :=
  let class_name := "Niveau " ++ level ++ "-" ++ sem.1
  let st := { st with L := st.L ++ [class_name],
                      programme := dset st.programme class_name [] }
  sem.2.foldl (processSubject class_name) st

/-- Processes one level (the outer loop of src/projet1.py line 57). -/
def processLevel (st : Catalogue) (lv : String × List (String × List Subject)) : Catalogue :=
  lv.2.foldl (processSemester lv.1) st

/-- Processes one room record (src/projet1.py lines 110-113): append its
cleaned `num` to `R` unless blank. -/
def processRoom (st : Catalogue) (room : PyVal) : Catalogue :=
  let room_num := clean_string room
  if room_num = "" then st else { st with R := st.R ++ [room_num] }

/-- Embeds `extract_data` (src/projet1.py lines 51-113): fold the nested
level / semester / subject structure, then the room list. -/
def extract_data (input : InputData) : Catalogue :=
  let st := input.niveau.foldl processLevel emptyCatalogue
  input.informatique.foldl processRoom st

/-- `self.D = list(range(1, 7))`: the six days. -/
def daysD : List Nat := [1, 2, 3, 4, 5, 6]

/-- `self.P = list(range(1, 6))`: the five periods. -/
def periodsP : List Nat := [1, 2, 3, 4, 5]

/-- `self.weights = {1: 5, 2: 4, 3: 3, 4: 2, 5: 1}` (src/projet1.py
line 31); the value 0 for other keys is never used, since weights are only
read at `p ∈ periodsP`. -/
def weights : Nat → Int
  | 1 => 5
  | 2 => 4
  | 3 => 3
  | 4 => 2
  | 5 => 1
  | _ => 0

/-- The index tuple of an assignment variable:
(class, course, room, day, period, teacher). -/
abbrev Key : Type := String × String × String × Nat × Nat × String

/-- The key set of the variable dict `x` (src/projet1.py lines 131-138):
one boolean variable per class `l` in `L`, course `c` in `programme[l]`,
room, day, period, and teacher in `course_teachers[c]`. -/
def xKeys (cat : Catalogue) : List Key :=
  cat.L.flatMap fun l =>
    (dget cat.programme l []).flatMap fun c =>
      cat.R.flatMap fun r =>
        daysD.flatMap fun d =>
          periodsP.flatMap fun p =>
            (dget cat.courseTeachers c []).map fun t => (l, c, r, d, p, t)

/-- A decision variable of the model: an assignment variable `x[k]` or a
linking variable `y[(l, c)]`. -/
inductive Var where
  | xv (k : Key)
  | yv (l c : String)
deriving DecidableEq, Repr

/-- A constraint posted by `model.Add`: either `sum(vars) <= bound`, or
`v == sum(vars)` (the linking equality). A variable may occur several
times in `vars`, exactly as a term may occur several times in the Python
generator expression. -/
inductive Constraint where
  | sumLe (vars : List Var) (bound : Int)
  | sumEqVar (v : Var) (vars : List Var)
deriving DecidableEq, Repr

/-- The terms `x.get((l, c, r, d, p, t), 0)` summed for one (class, course)
pair over all rooms, days, periods and eligible teachers (the generator of
src/projet1.py lines 147-151 and 168-173): a key outside `x` contributes
nothing. -/
def pairVars (cat : Catalogue) (l c : String) : List Var :=
  cat.R.flatMap fun r =>
    daysD.flatMap fun d =>
      periodsP.flatMap fun p =>
        (dget cat.courseTeachers c []).flatMap fun t =>
          if (l, c, r, d, p, t) ∈ xKeys cat then [Var.xv (l, c, r, d, p, t)] else []

/-- The linking constraints `y[(l,c)] == sum(...)` of src/projet1.py
lines 141-151. -/
def linkConstraints (cat : Catalogue) : List Constraint :=
  cat.L.flatMap fun l =>
    (dget cat.programme l []).map fun c =>
      Constraint.sumEqVar (Var.yv l c) (pairVars cat l c)

/-- The terms of constraint 1 (class non-overlap) for one (class, day,
period) cell (src/projet1.py lines 159-162). -/
def classCellVars (cat : Catalogue) (l : String) (d p : Nat) : List Var :=
  (dget cat.programme l []).flatMap fun c =>
    cat.R.flatMap fun r =>
      (dget cat.courseTeachers c []).flatMap fun t =>
        if (l, c, r, d, p, t) ∈ xKeys cat then [Var.xv (l, c, r, d, p, t)] else []

/-- Constraint 1: no schedule conflict for a class (src/projet1.py
lines 156-163). -/
def classConstraints (cat : Catalogue) : List Constraint :=
  cat.L.flatMap fun l =>
    daysD.flatMap fun d =>
      periodsP.map fun p => Constraint.sumLe (classCellVars cat l d p) 1

/-- Constraint 2: each (class, course) pair is scheduled at most once
(src/projet1.py lines 166-173, deliberately `<= 1` and not `== 1`). -/
def courseOnceConstraints (cat : Catalogue) : List Constraint :=
  cat.L.flatMap fun l =>
    (dget cat.programme l []).map fun c =>
      Constraint.sumLe (pairVars cat l c) 1

/-- The terms of constraint 3 (teacher non-overlap) for one (teacher, day,
period) cell (src/projet1.py lines 179-182), with the filter
`if t in course_teachers[c]`. -/
def teacherCellVars (cat : Catalogue) (t : String) (d p : Nat) : List Var :=
  cat.L.flatMap fun l =>
    ((dget cat.programme l []).filter fun c => decide (t ∈ dget cat.courseTeachers c [])).flatMap
      fun c =>
        cat.R.flatMap fun r =>
          if (l, c, r, d, p, t) ∈ xKeys cat then [Var.xv (l, c, r, d, p, t)] else []

/-- Constraint 3: a teacher gives at most one course per slot
(src/projet1.py lines 176-183). -/
def teacherConstraints (cat : Catalogue) : List Constraint :=
  cat.T.flatMap fun t =>
    daysD.flatMap fun d =>
      periodsP.map fun p => Constraint.sumLe (teacherCellVars cat t d p) 1

/-- The terms of constraint 4 (room non-overlap) for one (room, day,
period) cell (src/projet1.py lines 189-192). -/
def roomCellVars (cat : Catalogue) (r : String) (d p : Nat) : List Var :=
  cat.L.flatMap fun l =>
    (dget cat.programme l []).flatMap fun c =>
      (dget cat.courseTeachers c []).flatMap fun t =>
        if (l, c, r, d, p, t) ∈ xKeys cat then [Var.xv (l, c, r, d, p, t)] else []

/-- Constraint 4: a room hosts at most one course per slot
(src/projet1.py lines 186-193). -/
def roomConstraints (cat : Catalogue) : List Constraint :=
  cat.R.flatMap fun r =>
    daysD.flatMap fun d =>
      periodsP.map fun p => Constraint.sumLe (roomCellVars cat r d p) 1

/-- All constraints of the model, in the order the code posts them. -/
def modelConstraints (cat : Catalogue) : List Constraint :=
  linkConstraints cat ++ classConstraints cat ++ courseOnceConstraints cat ++
    teacherConstraints cat ++ roomConstraints cat

/-- The `objective_terms` list of src/projet1.py lines 196-213, flattened
to (coefficient, variable) pairs: per (class, course) programme entry the
expression `1000 * y + credit_bonus * y`, then per created assignment
variable (guarded by `if (l, c, r, d, p, t) in x`) the expression
`weights[p] * x`. -/
def objective_terms (cat : Catalogue) : List (Int × Var) :=
  (cat.L.flatMap fun l =>
    (dget cat.programme l []).flatMap fun c =>
      [((1000 : Int), Var.yv l c), (dget cat.courseCredits c 0, Var.yv l c)]) ++
  (cat.L.flatMap fun l =>
    (dget cat.programme l []).flatMap fun c =>
      cat.R.flatMap fun r =>
        daysD.flatMap fun d =>
          periodsP.flatMap fun p =>
            (dget cat.courseTeachers c []).flatMap fun t =>
              if (l, c, r, d, p, t) ∈ xKeys cat then
                [(weights p, Var.xv (l, c, r, d, p, t))] else [])

/-- Evaluates a variable under an assignment of the `x` and `y`
variables. -/
def evalVar (ax : Key → Int) (ay : String → String → Int) : Var → Int
  | .xv k => ax k
  | .yv l c => ay l c

/-- The value of a linear term list under an assignment. -/
def evalTerms (ax : Key → Int) (ay : String → String → Int) (ts : List (Int × Var)) : Int :=
  (ts.map fun t => t.1 * evalVar ax ay t.2).sum

/-- The (class, course) entries of all programmes, with multiplicity. -/
def pairsList (cat : Catalogue) : List (String × String) :=
  cat.L.flatMap fun l => (dget cat.programme l []).map fun c => (l, c)

/-- The objective as the specification words it: the sum over every
distinct (Class, Course) pair in the programs of `(1000 + credit) * y`,
plus the sum over every created assignment variable of
`weights[period] * x`. -/
def specObjective (cat : Catalogue) (ax : Key → Int) (ay : String → String → Int) : Int :=
  ((pairsList cat).dedup.map fun lc =>
    (1000 + dget cat.courseCredits lc.2 0) * ay lc.1 lc.2).sum +
  ((xKeys cat).dedup.map fun k => weights k.2.2.2.2.1 * ax k).sum

/-- A filled timetable cell: (course, teacher, room). -/
abbrev Cell : Type := String × String × String

/-- The nested timetable dict `timetable[l][d][p]`, as nested association
lists. -/
abbrev TT : Type := List (String × List (Nat × List (Nat × Option Cell)))

/-- The empty per-class grid built by the initialisation loops of
src/projet1.py lines 234-240: every (day, period) cell set to `None`. -/
def emptyGrid : List (Nat × List (Nat × Option Cell)) :=
  daysD.map fun d => (d, periodsP.map fun p => (p, (none : Option Cell)))

/-- The initial timetable: one empty grid per class in `L`. -/
def initTT (cat : Catalogue) : TT :=
  cat.L.foldl (fun tt l => dset tt l emptyGrid) []

/-- The cell writes performed by the fill loop of src/projet1.py
lines 243-250, in iteration order: for each class, programme course, room,
day, period and eligible teacher, if the key is in `x` and the solver set
it to 1, write (course, teacher, room) into `timetable[l][d][p]`. -/
def fillWrites (cat : Catalogue) (sol : Key → Bool) : List (String × Nat × Nat × Cell) :=
  cat.L.flatMap fun l =>
    (dget cat.programme l []).flatMap fun c =>
      cat.R.flatMap fun r =>
        daysD.flatMap fun d =>
          periodsP.flatMap fun p =>
            (dget cat.courseTeachers c []).flatMap fun t =>
              if (l, c, r, d, p, t) ∈ xKeys cat ∧ sol (l, c, r, d, p, t) = true then
                [(l, d, p, (c, t, r))] else []

/-- `timetable[l][d][p] = v`: look up the class dict and the day dict
(in the generator these keys always exist; a missing key, which in Python
would raise `KeyError`, is modelled as a no-op and is unreachable from
`fillTimetable`), then assign into the period dict. -/
def setCell (tt : TT) (l : String) (d p : Nat) (v : Option Cell) : TT :=
  match dfind tt l with
  | none => tt
  | some grid =>
    match dfind grid d with
    | none => tt
    | some row => dset tt l (dset grid d (dset row p v))

/-- The timetable produced by the result-processing phase of
`generate_timetable`: initialise every cell to `None`, then apply the fill
writes in order. -/
def fillTimetable (cat : Catalogue) (sol : Key → Bool) : TT :=
  (fillWrites cat sol).foldl (fun tt w => setCell tt w.1 w.2.1 w.2.2.1 (some w.2.2.2)) (initTT cat)

/-- The CP-SAT solver status values the result processing inspects. -/
inductive Status where
  | optimal
  | feasible
  | infeasible
  | unknown
deriving DecidableEq, Repr

/-- The result-processing phase of `generate_timetable` (src/projet1.py
lines 230-286): given the solver status and the solver values of the
assignment variables, return the filled timetable when the status is
OPTIMAL or FEASIBLE, and `None` otherwise. -/
def generate_timetable (cat : Catalogue) (status : Status) (sol : Key → Bool) : Option TT :=
  if status = Status.optimal ∨ status = Status.feasible then
    some (fillTimetable cat sol)
  else
    none

/-- Reads `timetable[l][d][p]`: `none` when one of the keys is absent,
otherwise the (possibly empty) cell. -/
def cellGet (tt : TT) (l : String) (d p : Nat) : Option (Option Cell) :=
  Option.bind (dfind tt l) fun grid => Option.bind (dfind grid d) fun row => dfind row p

/-- The last element of a list, `none` when empty (used to state that the
fill loop keeps the last write targeting a cell). -/
def lastWrite? {α : Type} : List α → Option α
  | [] => none
  | [a] => some a
  | _ :: b :: rest => lastWrite? (b :: rest)

/-- The cell values written into `timetable[l][d][p]` by the fill loop, in
iteration order. -/
def cellWrites (cat : Catalogue) (sol : Key → Bool) (l : String) (d p : Nat) : List Cell :=
  ((fillWrites cat sol).filter fun w => decide (w.1 = l ∧ w.2.1 = d ∧ w.2.2.1 = p)).map
    fun w => w.2.2.2

/-- `total_courses` of `analyze_problem` (src/projet1.py line 305): the
programme lengths summed over the programme dict values. -/
def total_courses (cat : Catalogue) : Nat :=
  (cat.programme.map fun e => e.2.length).sum

/-- `total_slots` of `analyze_problem` (src/projet1.py line 306):
days times periods times rooms. -/
def total_slots (cat : Catalogue) : Nat :=
  daysD.length * periodsP.length * cat.R.length

/-- The four remediation suggestions printed by `analyze_problem`
(src/projet1.py lines 311-314). -/
def capacitySuggestions : List String :=
  ["Augmenter le nombre de salles",
   "Augmenter le nombre de creneaux (jours ou periodes)",
   "Reduire le nombre de cours a programmer",
   "Permettre le partage de salles pour certains cours"]

/-- The capacity section of `analyze_problem` (src/projet1.py
lines 304-314): when `total_courses > total_slots`, report the two totals
and the four suggestions, otherwise report nothing. -/
def analyze_problem_capacity (cat : Catalogue) : Option (Nat × Nat × List String) :=
  if total_courses cat > total_slots cat then
    some (total_courses cat, total_slots cat, capacitySuggestions)
  else
    none

/-- A curriculum input with two descriptors of the same course code "A",
both without any lecturer: the second occurrence carries a different
credit value, which `extract_data` must ignore. -/
def dupInput : InputData :=
  ⟨[("1", [("1", [⟨PyVal.str "A", CreditField.num 2, none, none⟩,
                  ⟨PyVal.str "A", CreditField.num 7, none, none⟩])])], []⟩

/-- A small clean curriculum input: one class with two courses, each with
one lecturer, and one room. -/
def sampleInput : InputData :=
  ⟨[("1", [("1", [⟨PyVal.str "MAT101", CreditField.num 4, some [PyVal.str "Alice"], none⟩,
                  ⟨PyVal.str "PHY102", CreditField.bad, none, some [PyVal.str "Bob"]⟩])])],
   [PyVal.str "S01"]⟩

/-- A small hand-written catalogue: one class, one course, one room, one
teacher. -/
def sampleCat : Catalogue :=
  ⟨["l1"], ["A"], ["r1"], ["t1"], [("l1", ["A"])], [("A", ["t1"])], [("A", 3)]⟩

/-- A catalogue with two programme obligations and no room at all, so the
slot capacity is exceeded. -/
def capCat : Catalogue :=
  ⟨["l1"], ["A", "B"], [], ["t1"], [("l1", ["A", "B"])],
   [("A", ["t1"]), ("B", ["t1"])], [("A", 1), ("B", 1)]⟩

/-- A catalogue for the conflicting-cell scenario: one class with two
courses taught by two different teachers in one room. -/
def cexCat : Catalogue :=
  ⟨["CL"], ["A", "B"], ["R1"], ["tA", "tB"], [("CL", ["A", "B"])],
   [("A", ["tA"]), ("B", ["tB"])], [("A", 1), ("B", 1)]⟩

/-- A solver assignment that sets two assignment variables sharing the
(class, day, period) cell ("CL", 1, 1) to true. -/
def cexSol : Key → Bool := fun k =>
  decide (k = ("CL", "A", "R1", 1, 1, "tA") ∨ k = ("CL", "B", "R1", 1, 1, "tB"))

/-- Invariant of `extract_data`: in every course teacher list, the entries
other than the sentinel teacher are pairwise distinct (they are only ever
appended under a membership guard). -/
def SentNodup (st : Catalogue) : Prop :=
  ∀ c, ((dget st.courseTeachers c []).filter fun t => decide (¬ t = default_teacher)).Nodup

/-- Invariant of `extract_data`: every registered course has a non-empty
teacher list. -/
def NonemptyInv (st : Catalogue) : Prop :=
  ∀ c ∈ st.C, dget st.courseTeachers c [] ≠ []

/-- All course descriptors of the curriculum input, flattened in the exact
order `extract_data` visits them (levels, then semesters, then
subjects). -/
def subjectsOf (input : InputData) : List Subject :=
  input.niveau.flatMap fun lv => lv.2.flatMap fun sem => sem.2

/-- Shape invariant of the timetable dict: its keys are exactly the class
list, and every class grid has exactly the days as keys, each day row
exactly the periods. -/
def StructTT (cat : Catalogue) (tt : TT) : Prop :=
  tt.map Prod.fst = cat.L ∧
    ∀ e ∈ tt, e.2.map Prod.fst = daysD ∧ ∀ de ∈ e.2, de.2.map Prod.fst = periodsP

end Projet1

namespace Projet1

/-! ### Dictionary lemmas -/

theorem dfind_dset {α β : Type} [DecidableEq α] (m : List (α × β)) (k k' : α) (v : β) :
    dfind (dset m k v) k' = if k' = k then some v else dfind m k' := by
  have hpf : (fun e : α × β => decide (e.1 = k')) ∘ (fun e => if e.1 = k then (k, v) else e)
      = fun e : α × β => decide (e.1 = k') := by
    funext e
    by_cases he : e.1 = k <;> simp [he]
  unfold dset dfind
  by_cases h : m.any (fun e => decide (e.1 = k)) = true
  · rw [if_pos h, List.find?_map, hpf]
    by_cases hk : k' = k
    · rw [if_pos hk]
      cases hf : m.find? (fun e : α × β => decide (e.1 = k')) with
      | none =>
        obtain ⟨e, he, hpe⟩ := List.any_eq_true.mp h
        have : ¬ (decide (e.1 = k') = true) := List.find?_eq_none.mp hf e he
        rw [hk] at this
        exact absurd hpe this
      | some e0 =>
        have hp0 : e0.1 = k' := by simpa using List.find?_some hf
        simp [hp0, hk]
    · rw [if_neg hk]
      cases hf : m.find? (fun e : α × β => decide (e.1 = k')) with
      | none => simp
      | some e0 =>
        have hp0 : e0.1 = k' := by simpa using List.find?_some hf
        have : e0.1 ≠ k := by rw [hp0]; exact hk
        simp [this]
  · rw [if_neg h, List.find?_append]
    have hnone : m.find? (fun e : α × β => decide (e.1 = k)) = none := by
      rw [List.find?_eq_none]
      intro e he
      intro hpe
      exact h (List.any_eq_true.mpr ⟨e, he, hpe⟩)
    by_cases hk : k' = k
    · rw [if_pos hk, hk, hnone]
      simp
    · have hkk : ¬ (k = k') := fun h2 => hk h2.symm
      rw [if_neg hk]
      simp [List.find?, hkk]

theorem dget_dset_self {α β : Type} [DecidableEq α] (m : List (α × β)) (k : α) (v d : β) :
    dget (dset m k v) k d = v := by
  unfold dget
  rw [dfind_dset, if_pos rfl]
  rfl

theorem dget_dset_ne {α β : Type} [DecidableEq α] (m : List (α × β)) (k k' : α) (v : β)
    (d : β) (h : k' ≠ k) : dget (dset m k v) k' d = dget m k' d := by
  unfold dget
  rw [dfind_dset, if_neg h]

/-- A property preserved by every step of a fold is preserved by the whole
fold. -/
theorem foldl_preserve {α β : Type} (Q : α → Prop) (f : α → β → α)
    (h : ∀ a b, Q a → Q (f a b)) : ∀ (l : List β) (a : α), Q a → Q (l.foldl f a)
  | [], _, ha => ha
  | b :: l, a, ha => foldl_preserve Q f h l (f a b) (h a b ha)

/-! ### C6: the assignment-variable space -/

/-- C6: an assignment variable `x[(l, c, r, d, p, t)]` is created exactly
when `l` is a catalogue class, `c` is in the programme of `l`, `r` is a
room, `d` a day, `p` a period, and `t` an eligible teacher of `c`; no
variable exists for any other combination. -/
theorem xKeys_mem_iff (cat : Catalogue) (l c r : String) (d p : Nat) (t : String) :
    (l, c, r, d, p, t) ∈ xKeys cat ↔
      l ∈ cat.L ∧ c ∈ dget cat.programme l [] ∧ r ∈ cat.R ∧ d ∈ daysD ∧ p ∈ periodsP ∧
        t ∈ dget cat.courseTeachers c [] := by
  unfold xKeys
  simp only [List.mem_flatMap, List.mem_map]
  constructor
  · rintro ⟨l2, hl2, c2, hc2, r2, hr2, d2, hd2, p2, hp2, t2, ht2, heq⟩
    obtain ⟨rfl, rfl, rfl, rfl, rfl, rfl⟩ := Prod.mk.injEq .. ▸ heq
    exact ⟨hl2, hc2, hr2, hd2, hp2, ht2⟩
  · rintro ⟨hl, hc, hr, hd, hp, ht⟩
    exact ⟨l, hl, c, hc, r, hr, d, hd, p, hp, t, ht, rfl⟩

/-! ### C4: the course-at-most-once constraint -/

/-- C4: for every class `l` of the catalogue and every course `c` of its
programme, the model contains the constraint that the sum of all of the
pair's assignment variables over rooms, days, periods and eligible
teachers is at most 1 — posted with the `sumLe` (inequality) shape, not as
an equality forcing the course to be scheduled. -/
theorem courseOnce_constraint_mem (cat : Catalogue) (l c : String)
    (hl : l ∈ cat.L) (hc : c ∈ dget cat.programme l []) :
    Constraint.sumLe (pairVars cat l c) 1 ∈ modelConstraints cat := by
  have hmem : Constraint.sumLe (pairVars cat l c) 1 ∈ courseOnceConstraints cat := by
    unfold courseOnceConstraints
    simp only [List.mem_flatMap, List.mem_map]
    exact ⟨l, hl, c, hc, rfl⟩
  unfold modelConstraints
  simp [hmem]

/-- Witness for `courseOnce_constraint_mem` at the sample catalogue. -/
theorem courseOnce_constraint_mem_witness :
    Constraint.sumLe (pairVars sampleCat "l1" "A") 1 ∈ modelConstraints sampleCat :=
  courseOnce_constraint_mem sampleCat "l1" "A" (by decide) (by decide)

/-! ### C8: the capacity analysis -/

/-- C8: `analyze_problem` reports the capacity problem — the course total,
the slot total and the four remediation suggestions — exactly when the
total number of programme obligations strictly exceeds
days times periods times rooms, and reports nothing otherwise. -/
theorem analyze_problem_capacity_iff (cat : Catalogue) :
    ((analyze_problem_capacity cat).isSome ↔ total_slots cat < total_courses cat) ∧
    (∀ rep, analyze_problem_capacity cat = some rep →
      rep = (total_courses cat, total_slots cat, capacitySuggestions)) ∧
    (¬ total_slots cat < total_courses cat → analyze_problem_capacity cat = none) := by
  unfold analyze_problem_capacity
  by_cases h : total_courses cat > total_slots cat
  · rw [if_pos h]
    refine ⟨by simpa using h, ?_, fun h2 => absurd h h2⟩
    intro rep hrep
    exact (Option.some.injEq .. ▸ hrep).symm
  · rw [if_neg h]
    exact ⟨by simpa using h, by intro rep hrep; exact absurd hrep (by simp), fun _ => rfl⟩

/-- Witness for `analyze_problem_capacity_iff`: a catalogue with two
obligations and zero rooms is reported, the sample catalogue is not. -/
theorem analyze_problem_capacity_iff_witness :
    analyze_problem_capacity capCat =
      some (total_courses capCat, total_slots capCat, capacitySuggestions) ∧
    analyze_problem_capacity sampleCat = none := by
  constructor
  · cases hrep : analyze_problem_capacity capCat with
    | none =>
      have := (analyze_problem_capacity_iff capCat).1.mpr (by decide)
      rw [hrep] at this
      exact absurd this (by simp)
    | some rep =>
      rw [(analyze_problem_capacity_iff capCat).2.1 rep hrep]
  · exact (analyze_problem_capacity_iff sampleCat).2.2 (by decide)

/-! ### C10: clean_string and the skipping of blank records -/

/-- C10: `clean_string` trims string inputs and maps every non-string
input to `""`; a course descriptor whose cleaned code is blank leaves the
catalogue state untouched, and so does a room record whose cleaned label
is blank — no error is raised in either case. -/
theorem clean_string_skips (s : String) (st : Catalogue) (cn : String) (subj : Subject)
    (room : PyVal) :
    clean_string (PyVal.str s) = pyStrip s ∧
    clean_string PyVal.nonstr = "" ∧
    (clean_string subj.code = "" → processSubject cn st subj = st) ∧
    (clean_string room = "" → processRoom st room = st) := by
  refine ⟨rfl, rfl, ?_, ?_⟩
  · intro h
    unfold processSubject
    rw [h]
    simp
  · intro h
    unfold processRoom
    rw [h]
    simp

/-- Witness for `clean_string_skips`: a descriptor with a non-string code
and a room with a blank label are both skipped. -/
theorem clean_string_skips_witness :
    processSubject "CL" sampleCat ⟨PyVal.nonstr, CreditField.missing, none, none⟩ = sampleCat ∧
    processRoom sampleCat (PyVal.str "   ") = sampleCat :=
  ⟨(clean_string_skips "" sampleCat "CL" ⟨PyVal.nonstr, CreditField.missing, none, none⟩
      (PyVal.str "   ")).2.2.1 (by decide),
   (clean_string_skips "" sampleCat "CL" ⟨PyVal.nonstr, CreditField.missing, none, none⟩
      (PyVal.str "   ")).2.2.2 (by decide)⟩

/-! ### C2: duplicate sentinel entries in a teacher list -/

/-- Counterexample to C2 as stated: in `dupInput` the course "A" occurs in
two descriptors, both without a lecturer, and its eligible-teacher list
ends up holding the sentinel teacher twice — a duplicate entry. -/
theorem course_teachers_dup_cex :
    dget (extract_data dupInput).courseTeachers "A" [] =
      [default_teacher, default_teacher] ∧
    ¬ (dget (extract_data dupInput).courseTeachers "A" []).Nodup := by
  constructor
  · decide
  · decide

/-! ### Teacher-list invariants of extract_data (C2 amended, C3) -/

/-- Appending a fresh element keeps a filtered list duplicate-free. -/
theorem filter_nodup_append (l : List String) (x : String) (p : String → Bool) (hx : x ∉ l)
    (h : (l.filter p).Nodup) : ((l ++ [x]).filter p).Nodup := by
  rw [List.filter_append]
  cases hpx : p x
  · simp [hpx, h]
  · simp only [List.filter_cons, hpx, List.filter_nil, if_true]
    rw [List.nodup_append]
    refine ⟨h, List.nodup_singleton x, ?_⟩
    intro a ha hax
    rw [List.mem_singleton] at hax
    exact hx (hax ▸ List.mem_of_mem_filter ha)

/-- `addLecturer` never changes the course list, credits, programme,
classes or rooms. -/
theorem addLecturer_fields (code : String) (acc : Catalogue × Bool) (raw : PyVal) :
    (addLecturer code acc raw).1.C = acc.1.C ∧
    (addLecturer code acc raw).1.courseCredits = acc.1.courseCredits ∧
    (addLecturer code acc raw).1.programme = acc.1.programme ∧
    (addLecturer code acc raw).1.L = acc.1.L ∧
    (addLecturer code acc raw).1.R = acc.1.R := by
  unfold addLecturer
  by_cases hb : clean_string raw = "" <;> simp [hb] <;> split_ifs <;> simp

/-- `addLecturer` leaves the teacher list of every other course alone. -/
theorem addLecturer_teachers_ne (code : String) (acc : Catalogue × Bool) (raw : PyVal)
    (c : String) (hc : c ≠ code) :
    dget (addLecturer code acc raw).1.courseTeachers c [] =
      dget acc.1.courseTeachers c [] := by
  unfold addLecturer
  by_cases hb : clean_string raw = "" <;> simp [hb] <;> split_ifs <;>
    simp [dget_dset_ne _ _ _ _ _ hc]

/-- `addLecturer` either keeps the teacher list of its course or appends a
single lecturer not already present. -/
theorem addLecturer_teachers_code (code : String) (acc : Catalogue × Bool) (raw : PyVal) :
    dget (addLecturer code acc raw).1.courseTeachers code [] =
      dget acc.1.courseTeachers code [] ∨
    ∃ lect, lect ∉ dget acc.1.courseTeachers code [] ∧
      dget (addLecturer code acc raw).1.courseTeachers code [] =
        dget acc.1.courseTeachers code [] ++ [lect] := by
  unfold addLecturer
  by_cases hb : clean_string raw = ""
  · simp [hb]
  · simp only [hb, if_false]
    by_cases hcur : clean_string raw ∈ dget acc.1.courseTeachers code []
    · left
      split_ifs <;> simp_all
    · right
      refine ⟨clean_string raw, hcur, ?_⟩
      split_ifs <;> simp_all [dget_dset_self]

/-- `addLecturer` preserves the sentinel-filtered duplicate-freedom
invariant. -/
theorem addLecturer_sentNodup (code : String) (acc : Catalogue × Bool) (raw : PyVal)
    (h : SentNodup acc.1) : SentNodup (addLecturer code acc raw).1 := by
  intro c
  by_cases hc : c = code
  · subst hc
    rcases addLecturer_teachers_code c acc raw with heq | ⟨lect, hlect, heq⟩
    · rw [heq]; exact h c
    · rw [heq]; exact filter_nodup_append _ _ _ hlect (h c)
  · rw [addLecturer_teachers_ne code acc raw c hc]
    exact h c

/-- `addLecturer` keeps non-empty teacher lists non-empty. -/
theorem addLecturer_keeps_nonempty (code : String) (acc : Catalogue × Bool) (raw : PyVal)
    (c : String) (h : dget acc.1.courseTeachers c [] ≠ []) :
    dget (addLecturer code acc raw).1.courseTeachers c [] ≠ [] := by
  by_cases hc : c = code
  · subst hc
    rcases addLecturer_teachers_code c acc raw with heq | ⟨lect, _, heq⟩ <;> simp [heq, h]
  · rw [addLecturer_teachers_ne code acc raw c hc]; exact h

/-- After `addLecturer`, a true found-flag guarantees a non-empty teacher
list for the course being processed. -/
theorem addLecturer_found (code : String) (acc : Catalogue × Bool) (raw : PyVal)
    (h : acc.2 = true → dget acc.1.courseTeachers code [] ≠ []) :
    (addLecturer code acc raw).2 = true →
      dget (addLecturer code acc raw).1.courseTeachers code [] ≠ [] := by
  unfold addLecturer
  by_cases hb : clean_string raw = ""
  · simpa [hb] using h
  · simp only [hb, if_false]
    intro _
    by_cases hcur : clean_string raw ∈ dget acc.1.courseTeachers code []
    · have hne := List.ne_nil_of_mem hcur
      split_ifs <;> simp_all
    · split_ifs <;> simp_all [dget_dset_self]

/-- A component of the state left unchanged by every fold step is left
unchanged by the whole fold. -/
theorem foldl_attr {α β γ : Type} (f : α → β → α) (g : α → γ)
    (h : ∀ a b, g (f a b) = g a) : ∀ (l : List β) (a : α), g (l.foldl f a) = g a
  | [], _ => rfl
  | b :: l, a => by rw [List.foldl_cons, foldl_attr f g h l (f a b), h]

theorem processLects_C (code : String) (acc : Catalogue × Bool) (field : Option (List PyVal)) :
    (processLects code acc field).1.C = acc.1.C := by
  cases field with
  | none => rfl
  | some ls =>
    exact foldl_attr (addLecturer code) (fun a => a.1.C)
      (fun a b => (addLecturer_fields code a b).1) ls acc

theorem processLects_credits (code : String) (acc : Catalogue × Bool)
    (field : Option (List PyVal)) :
    (processLects code acc field).1.courseCredits = acc.1.courseCredits := by
  cases field with
  | none => rfl
  | some ls =>
    exact foldl_attr (addLecturer code) (fun a => a.1.courseCredits)
      (fun a b => (addLecturer_fields code a b).2.1) ls acc

theorem processLects_teachers_ne (code : String) (acc : Catalogue × Bool)
    (field : Option (List PyVal)) (c : String) (hc : c ≠ code) :
    dget (processLects code acc field).1.courseTeachers c [] =
      dget acc.1.courseTeachers c [] := by
  cases field with
  | none => rfl
  | some ls =>
    exact foldl_attr (addLecturer code) (fun a => dget a.1.courseTeachers c [])
      (fun a b => addLecturer_teachers_ne code a b c hc) ls acc

theorem processLects_sentNodup (code : String) (acc : Catalogue × Bool)
    (field : Option (List PyVal)) (h : SentNodup acc.1) :
    SentNodup (processLects code acc field).1 := by
  cases field with
  | none => exact h
  | some ls =>
    exact foldl_preserve (fun a => SentNodup a.1) (addLecturer code)
      (fun a b ha => addLecturer_sentNodup code a b ha) ls acc h

theorem processLects_found (code : String) (acc : Catalogue × Bool)
    (field : Option (List PyVal))
    (h : acc.2 = true → dget acc.1.courseTeachers code [] ≠ []) :
    (processLects code acc field).2 = true →
      dget (processLects code acc field).1.courseTeachers code [] ≠ [] := by
  cases field with
  | none => exact h
  | some ls =>
    exact foldl_preserve (fun a => a.2 = true → dget a.1.courseTeachers code [] ≠ [])
      (addLecturer code) (fun a b ha => addLecturer_found code a b ha) ls acc h

theorem registerCourse_teachers_ne (st : Catalogue) (code : String) (cr : CreditField)
    (c : String) (hc : c ≠ code) :
    dget (registerCourse st code cr).courseTeachers c [] = dget st.courseTeachers c [] := by
  unfold registerCourse
  split_ifs <;> simp [dget_dset_ne _ _ _ _ _ hc]

theorem registerCourse_mem_C (st : Catalogue) (code : String) (cr : CreditField) (c : String) :
    c ∈ (registerCourse st code cr).C ↔ c ∈ st.C ∨ c = code := by
  unfold registerCourse
  split_ifs with hm
  · constructor
    · exact fun h => Or.inl h
    · rintro (h | rfl)
      · exact h
      · exact hm
  · simp

theorem registerCourse_sentNodup (st : Catalogue) (code : String) (cr : CreditField)
    (h : SentNodup st) : SentNodup (registerCourse st code cr) := by
  intro c
  unfold registerCourse
  split_ifs with hm
  · exact h c
  · by_cases hc : c = code
    · subst hc
      show ((dget (dset st.courseTeachers c []) c []).filter _).Nodup
      rw [dget_dset_self]
      exact List.nodup_nil
    · show ((dget (dset st.courseTeachers code []) c []).filter _).Nodup
      rw [dget_dset_ne _ _ _ _ _ hc]
      exact h c

theorem sentinelStep_C (st : Catalogue) (code : String) :
    (sentinelStep st code).C = st.C := by
  unfold sentinelStep
  split_ifs <;> rfl

theorem sentinelStep_teachers_ne (st : Catalogue) (code c : String) (hc : c ≠ code) :
    dget (sentinelStep st code).courseTeachers c [] = dget st.courseTeachers c [] := by
  unfold sentinelStep
  split_ifs <;> simp [dget_dset_ne _ _ _ _ _ hc]

theorem sentinelStep_teachers_code (st : Catalogue) (code : String) :
    dget (sentinelStep st code).courseTeachers code [] =
      dget st.courseTeachers code [] ++ [default_teacher] := by
  unfold sentinelStep
  split_ifs <;> simp [dget_dset_self]

theorem sentinelStep_sentNodup (st : Catalogue) (code : String) (h : SentNodup st) :
    SentNodup (sentinelStep st code) := by
  intro c
  by_cases hc : c = code
  · subst hc
    rw [sentinelStep_teachers_code, List.filter_append]
    have hdrop : List.filter (fun t => decide (¬ t = default_teacher)) [default_teacher]
        = [] := by simp [List.filter]
    rw [hdrop, List.append_nil]
    exact h c
  · rw [sentinelStep_teachers_ne _ _ _ hc]
    exact h c

/-- `processSubject` preserves the two teacher-list invariants. -/
theorem processSubject_inv (cn : String) (st : Catalogue) (subj : Subject)
    (h : SentNodup st ∧ NonemptyInv st) :
    SentNodup (processSubject cn st subj) ∧ NonemptyInv (processSubject cn st subj) := by
  obtain ⟨h1, h2⟩ := h
  unfold processSubject
  by_cases hb : clean_string subj.code = ""
  · simp only [hb, if_true]
    exact ⟨h1, h2⟩
  · simp only [hb, if_false]
    set code := clean_string subj.code with hcode
    set st1 := registerCourse st code subj.credit with hst1
    set st2 := appendProgramme st1 cn code with hst2
    set acc1 := processLects code (st2, false) subj.courseLecturer with hacc1
    set acc2 := processLects code acc1 subj.assistantLecturer with hacc2
    have hteach2 : st2.courseTeachers = st1.courseTeachers := rfl
    have hC2 : st2.C = st1.C := rfl
    have hS1 : SentNodup st1 := registerCourse_sentNodup st code subj.credit h1
    have hS2 : SentNodup st2 := hS1
    have hSa : SentNodup acc2.1 :=
      processLects_sentNodup code acc1 _
        (processLects_sentNodup code (st2, false) _ hS2)
    have hfound : acc2.2 = true → dget acc2.1.courseTeachers code [] ≠ [] := by
      apply processLects_found
      apply processLects_found
      intro hh
      simp at hh
    have hkeep : ∀ c, c ≠ code →
        dget acc2.1.courseTeachers c [] = dget st.courseTeachers c [] := by
      intro c hc
      rw [hacc2, processLects_teachers_ne code acc1 _ c hc,
          hacc1, processLects_teachers_ne code (st2, false) _ c hc]
      show dget st1.courseTeachers c [] = _
      exact registerCourse_teachers_ne st code subj.credit c hc
    have hCmem : ∀ c, c ∈ acc2.1.C ↔ c ∈ st.C ∨ c = code := by
      intro c
      rw [hacc2, processLects_C code acc1 _, hacc1, processLects_C code (st2, false) _]
      show c ∈ st1.C ↔ _
      exact registerCourse_mem_C st code subj.credit c
    cases hf : acc2.2 with
    | false =>
      simp only [hf, Bool.false_eq_true, if_false]
      constructor
      · exact sentinelStep_sentNodup acc2.1 code hSa
      · intro c hc
        rw [sentinelStep_C] at hc
        by_cases hcc : c = code
        · subst hcc
          rw [sentinelStep_teachers_code]
          simp
        · rw [sentinelStep_teachers_ne _ _ _ hcc, hkeep c hcc]
          rcases (hCmem c).1 hc with hmem | heq
          · exact h2 c hmem
          · exact absurd heq hcc
    | true =>
      simp only [hf, if_true]
      refine ⟨hSa, ?_⟩
      intro c hc
      by_cases hcc : c = code
      · subst hcc
        exact hfound hf
      · rw [hkeep c hcc]
        rcases (hCmem c).1 hc with hmem | heq
        · exact h2 c hmem
        · exact absurd heq hcc

/-- `processSemester` preserves the two teacher-list invariants. -/
theorem processSemester_inv (lv : String) (st : Catalogue) (sem : String × List Subject)
    (h : SentNodup st ∧ NonemptyInv st) :
    SentNodup (processSemester lv st sem) ∧ NonemptyInv (processSemester lv st sem) := by
  unfold processSemester
  exact foldl_preserve (fun s => SentNodup s ∧ NonemptyInv s) (processSubject _)
    (fun s b hs => processSubject_inv _ s b hs) sem.2 _ ⟨h.1, h.2⟩

/-- `processLevel` preserves the two teacher-list invariants. -/
theorem processLevel_inv (st : Catalogue) (lv : String × List (String × List Subject))
    (h : SentNodup st ∧ NonemptyInv st) :
    SentNodup (processLevel st lv) ∧ NonemptyInv (processLevel st lv) := by
  unfold processLevel
  exact foldl_preserve (fun s => SentNodup s ∧ NonemptyInv s) (processSemester lv.1)
    (fun s b hs => processSemester_inv lv.1 s b hs) lv.2 st h

/-- `processRoom` preserves the two teacher-list invariants. -/
theorem processRoom_inv (st : Catalogue) (room : PyVal)
    (h : SentNodup st ∧ NonemptyInv st) :
    SentNodup (processRoom st room) ∧ NonemptyInv (processRoom st room) := by
  unfold processRoom
  by_cases hb : clean_string room = ""
  · simp only [hb, if_true]
    exact h
  · simp only [hb, if_false]
    exact ⟨h.1, h.2⟩

/-- Both teacher-list invariants hold of every extracted catalogue. -/
theorem extract_data_inv (input : InputData) :
    SentNodup (extract_data input) ∧ NonemptyInv (extract_data input) := by
  unfold extract_data
  apply foldl_preserve (fun s => SentNodup s ∧ NonemptyInv s) processRoom processRoom_inv
  apply foldl_preserve (fun s => SentNodup s ∧ NonemptyInv s) processLevel processLevel_inv
  constructor
  · intro c
    show ((dget [] c []).filter _).Nodup
    exact List.nodup_nil
  · intro c hc
    simp [emptyCatalogue] at hc

/-- C2 amended: in every extracted catalogue, the non-sentinel entries of
every eligible-teacher list are pairwise distinct; the sentinel teacher,
by contrast, is appended once per teacherless descriptor occurrence and
may repeat (see `course_teachers_dup_cex`). -/
theorem course_teachers_nonsentinel_nodup (input : InputData) (c : String) :
    ((dget (extract_data input).courseTeachers c []).filter
      fun t => decide (¬ t = default_teacher)).Nodup :=
  (extract_data_inv input).1 c

/-- C3: every course code registered by `extract_data` has a non-empty
eligible-teacher list (the sentinel fallback guarantees at least one
entry). -/
theorem course_teachers_nonempty (input : InputData) (c : String)
    (hc : c ∈ (extract_data input).C) :
    dget (extract_data input).courseTeachers c [] ≠ [] :=
  (extract_data_inv input).2 c hc

/-- Witness for `course_teachers_nonempty` at the sample input. -/
theorem course_teachers_nonempty_witness :
    dget (extract_data sampleInput).courseTeachers "MAT101" [] ≠ [] :=
  course_teachers_nonempty sampleInput "MAT101" (by decide)

/-! ### C7: the first descriptor occurrence fixes the credit -/

theorem sentinelStep_credits (st : Catalogue) (code : String) :
    (sentinelStep st code).courseCredits = st.courseCredits := by
  unfold sentinelStep
  split_ifs <;> rfl

theorem registerCourse_credits_self (st : Catalogue) (code : String) (cr : CreditField)
    (h : code ∉ st.C) :
    dget (registerCourse st code cr).courseCredits code 0 = parseCredit cr := by
  unfold registerCourse
  rw [if_neg h]
  exact dget_dset_self _ _ _ _

theorem registerCourse_credits_stable (st : Catalogue) (code : String) (cr : CreditField)
    (c : String) (h : code ∈ st.C ∨ c ≠ code) :
    dget (registerCourse st code cr).courseCredits c 0 = dget st.courseCredits c 0 := by
  unfold registerCourse
  by_cases hm : code ∈ st.C
  · rw [if_pos hm]
  · rw [if_neg hm]
    rcases h with h | h
    · exact absurd h hm
    · exact dget_dset_ne _ _ _ _ _ h

/-- After the registration step, the lecturer processing and the sentinel
step change neither the course list nor the credits. -/
theorem lectPhase_C_credits (code : String) (st2 : Catalogue) (f1 f2 : Option (List PyVal)) :
    (if (processLects code (processLects code (st2, false) f1) f2).2 = true then
       (processLects code (processLects code (st2, false) f1) f2).1
     else sentinelStep (processLects code (processLects code (st2, false) f1) f2).1 code).C
        = st2.C ∧
    (if (processLects code (processLects code (st2, false) f1) f2).2 = true then
       (processLects code (processLects code (st2, false) f1) f2).1
     else sentinelStep (processLects code (processLects code (st2, false) f1) f2).1
       code).courseCredits = st2.courseCredits := by
  have hC : (processLects code (processLects code (st2, false) f1) f2).1.C = st2.C := by
    rw [processLects_C, processLects_C]
  have hcred : (processLects code (processLects code (st2, false) f1) f2).1.courseCredits
      = st2.courseCredits := by
    rw [processLects_credits, processLects_credits]
  split_ifs
  · exact ⟨hC, hcred⟩
  · rw [sentinelStep_C, sentinelStep_credits]
    exact ⟨hC, hcred⟩

/-- A course already registered keeps its membership and its credit
through any later descriptor. -/
theorem processSubject_credit_stable (cn : String) (st : Catalogue) (s : Subject) (c : String)
    (hc : c ∈ st.C) :
    c ∈ (processSubject cn st s).C ∧
      dget (processSubject cn st s).courseCredits c 0 = dget st.courseCredits c 0 := by
  unfold processSubject
  by_cases hb : clean_string s.code = ""
  · simp only [hb, if_true]
    exact ⟨hc, by trivial⟩
  · simp only [hb, if_false]
    obtain ⟨hC, hcred⟩ := lectPhase_C_credits (clean_string s.code)
      (appendProgramme (registerCourse st (clean_string s.code) s.credit) cn
        (clean_string s.code)) s.courseLecturer s.assistantLecturer
    rw [hC, hcred]
    show c ∈ (registerCourse st (clean_string s.code) s.credit).C ∧
      dget (registerCourse st (clean_string s.code) s.credit).courseCredits c 0 =
        dget st.courseCredits c 0
    refine ⟨(registerCourse_mem_C _ _ _ c).2 (Or.inl hc), ?_⟩
    apply registerCourse_credits_stable
    by_cases hm : clean_string s.code ∈ st.C
    · exact Or.inl hm
    · exact Or.inr fun h => hm (h ▸ hc)

/-- The descriptor that first carries a fresh course code registers it
with its parsed credit. -/
theorem processSubject_credit_new (cn : String) (st : Catalogue) (s : Subject) (c : String)
    (hc : c ∉ st.C) (hcode : clean_string s.code = c) (hne : c ≠ "") :
    c ∈ (processSubject cn st s).C ∧
      dget (processSubject cn st s).courseCredits c 0 = parseCredit s.credit := by
  unfold processSubject
  rw [hcode, if_neg hne]
  obtain ⟨hC, hcred⟩ := lectPhase_C_credits c
    (appendProgramme (registerCourse st c s.credit) cn c) s.courseLecturer s.assistantLecturer
  rw [hC, hcred]
  show c ∈ (registerCourse st c s.credit).C ∧
    dget (registerCourse st c s.credit).courseCredits c 0 = parseCredit s.credit
  exact ⟨(registerCourse_mem_C _ _ _ c).2 (Or.inr rfl),
    registerCourse_credits_self st c s.credit hc⟩

/-- A descriptor whose cleaned code differs from `c` neither registers `c`
nor touches its credit. -/
theorem processSubject_credit_skip (cn : String) (st : Catalogue) (s : Subject) (c : String)
    (hc : c ∉ st.C) (hcode : clean_string s.code ≠ c) :
    c ∉ (processSubject cn st s).C ∧
      dget (processSubject cn st s).courseCredits c 0 = dget st.courseCredits c 0 := by
  unfold processSubject
  by_cases hb : clean_string s.code = ""
  · simp only [hb, if_true]
    exact ⟨hc, by trivial⟩
  · simp only [hb, if_false]
    obtain ⟨hC, hcred⟩ := lectPhase_C_credits (clean_string s.code)
      (appendProgramme (registerCourse st (clean_string s.code) s.credit) cn
        (clean_string s.code)) s.courseLecturer s.assistantLecturer
    rw [hC, hcred]
    show c ∉ (registerCourse st (clean_string s.code) s.credit).C ∧
      dget (registerCourse st (clean_string s.code) s.credit).courseCredits c 0 =
        dget st.courseCredits c 0
    constructor
    · intro hmem
      rcases (registerCourse_mem_C st (clean_string s.code) s.credit c).1 hmem with h | h
      · exact hc h
      · exact hcode h.symm
    · exact registerCourse_credits_stable st (clean_string s.code) s.credit c
        (Or.inr fun h => hcode h.symm)

/-- Stability of membership and credit through a whole subject list. -/
theorem processList_credit_stable (cn : String) (c : String) (v : Int) (ss : List Subject)
    (st : Catalogue) (h : c ∈ st.C ∧ dget st.courseCredits c 0 = v) :
    c ∈ (ss.foldl (processSubject cn) st).C ∧
      dget (ss.foldl (processSubject cn) st).courseCredits c 0 = v := by
  apply foldl_preserve (fun st => c ∈ st.C ∧ dget st.courseCredits c 0 = v)
    (processSubject cn) ?_ ss st h
  intro a b ha
  obtain ⟨h1, h2⟩ := processSubject_credit_stable cn a b c ha.1
  exact ⟨h1, h2.trans ha.2⟩

/-- Over a whole subject list: the first descriptor whose cleaned code is
`c` (if any) determines the registered credit of `c`; without one, `c`
stays unregistered and its credit entry untouched. -/
theorem processList_credit (cn : String) (c : String) (hne : c ≠ "") :
    ∀ (ss : List Subject) (st : Catalogue), c ∉ st.C →
      (∀ s, ss.find? (fun s => decide (clean_string s.code = c)) = some s →
        c ∈ (ss.foldl (processSubject cn) st).C ∧
          dget (ss.foldl (processSubject cn) st).courseCredits c 0 = parseCredit s.credit) ∧
      (ss.find? (fun s => decide (clean_string s.code = c)) = none →
        c ∉ (ss.foldl (processSubject cn) st).C ∧
          dget (ss.foldl (processSubject cn) st).courseCredits c 0 =
            dget st.courseCredits c 0) := by
  intro ss
  induction ss with
  | nil =>
    intro st hc
    exact ⟨fun s hs => by simp at hs, fun _ => ⟨hc, rfl⟩⟩
  | cons s0 ss ih =>
    intro st hc
    by_cases hp : clean_string s0.code = c
    · have hfind : (s0 :: ss).find? (fun s => decide (clean_string s.code = c)) = some s0 :=
        List.find?_cons_of_pos _ (by simpa using hp)
      constructor
      · intro s hs
        rw [hfind] at hs
        have hss : s0 = s := by injection hs
        subst hss
        rw [List.foldl_cons]
        exact processList_credit_stable cn c _ ss _
          (processSubject_credit_new cn st s0 c hc hp hne)
      · intro hs
        rw [hfind] at hs
        exact absurd hs (by simp)
    · have hfind : (s0 :: ss).find? (fun s => decide (clean_string s.code = c)) =
          ss.find? (fun s => decide (clean_string s.code = c)) :=
        List.find?_cons_of_neg _ (by simpa using hp)
      obtain ⟨hskip1, hskip2⟩ := processSubject_credit_skip cn st s0 c hc hp
      constructor
      · intro s hs
        rw [hfind] at hs
        rw [List.foldl_cons]
        exact (ih _ hskip1).1 s hs
      · intro hs
        rw [hfind] at hs
        rw [List.foldl_cons]
        obtain ⟨g1, g2⟩ := (ih _ hskip1).2 hs
        exact ⟨g1, g2.trans hskip2⟩

/-- `processSemester` in terms of its subject list, for course membership
and credits. -/
theorem processSemester_credit (level : String) (c : String) (hne : c ≠ "")
    (sem : String × List Subject) (st : Catalogue) (hc : c ∉ st.C) :
    (∀ s, sem.2.find? (fun s => decide (clean_string s.code = c)) = some s →
      c ∈ (processSemester level st sem).C ∧
        dget (processSemester level st sem).courseCredits c 0 = parseCredit s.credit) ∧
    (sem.2.find? (fun s => decide (clean_string s.code = c)) = none →
      c ∉ (processSemester level st sem).C ∧
        dget (processSemester level st sem).courseCredits c 0 =
          dget st.courseCredits c 0) := by
  unfold processSemester
  exact processList_credit ("Niveau " ++ level ++ "-" ++ sem.1) c hne sem.2 _ hc

theorem processSemester_credit_stable (level : String) (st : Catalogue)
    (sem : String × List Subject) (c : String) (v : Int)
    (h : c ∈ st.C ∧ dget st.courseCredits c 0 = v) :
    c ∈ (processSemester level st sem).C ∧
      dget (processSemester level st sem).courseCredits c 0 = v := by
  unfold processSemester
  exact processList_credit_stable ("Niveau " ++ level ++ "-" ++ sem.1) c v sem.2 _ h

theorem processSemList_credit_stable (level : String) (c : String) (v : Int)
    (sems : List (String × List Subject)) (st : Catalogue)
    (h : c ∈ st.C ∧ dget st.courseCredits c 0 = v) :
    c ∈ (sems.foldl (processSemester level) st).C ∧
      dget (sems.foldl (processSemester level) st).courseCredits c 0 = v :=
  foldl_preserve (fun st => c ∈ st.C ∧ dget st.courseCredits c 0 = v)
    (processSemester level) (fun a b ha => processSemester_credit_stable level a b c v ha)
    sems st h

/-- Over the semester list of one level: the first descriptor among all
its semesters fixes the credit. -/
theorem processSemList_credit (level : String) (c : String) (hne : c ≠ "") :
    ∀ (sems : List (String × List Subject)) (st : Catalogue), c ∉ st.C →
      (∀ s, ((sems.flatMap fun sem => sem.2).find?
          (fun s => decide (clean_string s.code = c))) = some s →
        c ∈ (sems.foldl (processSemester level) st).C ∧
          dget (sems.foldl (processSemester level) st).courseCredits c 0 =
            parseCredit s.credit) ∧
      (((sems.flatMap fun sem => sem.2).find?
          (fun s => decide (clean_string s.code = c))) = none →
        c ∉ (sems.foldl (processSemester level) st).C ∧
          dget (sems.foldl (processSemester level) st).courseCredits c 0 =
            dget st.courseCredits c 0) := by
  intro sems
  induction sems with
  | nil =>
    intro st hc
    exact ⟨fun s hs => by simp at hs, fun _ => ⟨hc, rfl⟩⟩
  | cons sem sems ih =>
    intro st hc
    rw [List.flatMap_cons, List.find?_append]
    cases hfind1 : sem.2.find? (fun s => decide (clean_string s.code = c)) with
    | some s0 =>
      rw [Option.or_some]
      obtain ⟨hnew1, hnew2⟩ := (processSemester_credit level c hne sem st hc).1 s0 hfind1
      constructor
      · intro s hs
        have hss : s0 = s := by injection hs
        subst hss
        rw [List.foldl_cons]
        exact processSemList_credit_stable level c _ sems _ ⟨hnew1, hnew2⟩
      · intro hs
        exact absurd hs (by simp)
    | none =>
      obtain ⟨hsk1, hsk2⟩ :=
        (processSemester_credit level c hne sem st hc).2 hfind1
      constructor
      · intro s hs
        rw [Option.none_or] at hs
        rw [List.foldl_cons]
        exact (ih _ hsk1).1 s hs
      · intro hs
        rw [Option.none_or] at hs
        rw [List.foldl_cons]
        obtain ⟨g1, g2⟩ := (ih _ hsk1).2 hs
        exact ⟨g1, g2.trans hsk2⟩

theorem processLevel_credit_stable (st : Catalogue)
    (lv : String × List (String × List Subject)) (c : String) (v : Int)
    (h : c ∈ st.C ∧ dget st.courseCredits c 0 = v) :
    c ∈ (processLevel st lv).C ∧ dget (processLevel st lv).courseCredits c 0 = v := by
  unfold processLevel
  exact processSemList_credit_stable lv.1 c v lv.2 st h

/-- Over the whole level structure: the first descriptor in visit order
fixes the credit. -/
theorem processLevelList_credit (c : String) (hne : c ≠ "") :
    ∀ (levels : List (String × List (String × List Subject))) (st : Catalogue), c ∉ st.C →
      (∀ s, ((levels.flatMap fun lv => lv.2.flatMap fun sem => sem.2).find?
          (fun s => decide (clean_string s.code = c))) = some s →
        c ∈ (levels.foldl processLevel st).C ∧
          dget (levels.foldl processLevel st).courseCredits c 0 = parseCredit s.credit) ∧
      (((levels.flatMap fun lv => lv.2.flatMap fun sem => sem.2).find?
          (fun s => decide (clean_string s.code = c))) = none →
        c ∉ (levels.foldl processLevel st).C ∧
          dget (levels.foldl processLevel st).courseCredits c 0 =
            dget st.courseCredits c 0) := by
  intro levels
  induction levels with
  | nil =>
    intro st hc
    exact ⟨fun s hs => by simp at hs, fun _ => ⟨hc, rfl⟩⟩
  | cons lv levels ih =>
    intro st hc
    rw [List.flatMap_cons, List.find?_append]
    cases hfind1 : (lv.2.flatMap fun sem => sem.2).find?
        (fun s => decide (clean_string s.code = c)) with
    | some s0 =>
      rw [Option.or_some]
      obtain ⟨hnew1, hnew2⟩ := (processSemList_credit lv.1 c hne lv.2 st hc).1 s0 hfind1
      constructor
      · intro s hs
        have hss : s0 = s := by injection hs
        subst hss
        rw [List.foldl_cons]
        exact foldl_preserve
          (fun st => c ∈ st.C ∧ dget st.courseCredits c 0 = parseCredit s0.credit)
          processLevel (fun a b ha => processLevel_credit_stable a b c _ ha) levels _
          ⟨hnew1, hnew2⟩
      · intro hs
        exact absurd hs (by simp)
    | none =>
      obtain ⟨hsk1, hsk2⟩ := (processSemList_credit lv.1 c hne lv.2 st hc).2 hfind1
      constructor
      · intro s hs
        rw [Option.none_or] at hs
        rw [List.foldl_cons]
        exact (ih _ hsk1).1 s hs
      · intro hs
        rw [Option.none_or] at hs
        rw [List.foldl_cons]
        obtain ⟨g1, g2⟩ := (ih _ hsk1).2 hs
        exact ⟨g1, g2.trans hsk2⟩

/-- `processRoom` changes only the room list. -/
theorem processRoom_C_credits (st : Catalogue) (room : PyVal) :
    (processRoom st room).C = st.C ∧ (processRoom st room).courseCredits = st.courseCredits := by
  unfold processRoom
  by_cases hb : clean_string room = "" <;> simp [hb]

theorem roomFold_C_credits (rooms : List PyVal) (st : Catalogue) :
    (rooms.foldl processRoom st).C = st.C ∧
      (rooms.foldl processRoom st).courseCredits = st.courseCredits :=
  ⟨foldl_attr processRoom (fun s => s.C) (fun a b => (processRoom_C_credits a b).1) rooms st,
   foldl_attr processRoom (fun s => s.courseCredits)
     (fun a b => (processRoom_C_credits a b).2) rooms st⟩

/-- Only non-blank codes ever enter the course list. -/
theorem processSubject_nonblank (cn : String) (st : Catalogue) (s : Subject)
    (h : "" ∉ st.C) : "" ∉ (processSubject cn st s).C := by
  unfold processSubject
  by_cases hb : clean_string s.code = ""
  · simpa [hb] using h
  · simp only [hb, if_false]
    obtain ⟨hC, _⟩ := lectPhase_C_credits (clean_string s.code)
      (appendProgramme (registerCourse st (clean_string s.code) s.credit) cn
        (clean_string s.code)) s.courseLecturer s.assistantLecturer
    rw [hC]
    show "" ∉ (registerCourse st (clean_string s.code) s.credit).C
    intro hmem
    rcases (registerCourse_mem_C st (clean_string s.code) s.credit "").1 hmem with h2 | h2
    · exact h h2
    · exact hb h2.symm

theorem extract_data_C_nonblank (input : InputData) : "" ∉ (extract_data input).C := by
  unfold extract_data
  apply foldl_preserve (fun st => "" ∉ st.C) processRoom
    (fun a b ha => by
      show "" ∉ (processRoom a b).C
      rw [(processRoom_C_credits a b).1]
      exact ha)
  apply foldl_preserve (fun st => "" ∉ st.C) processLevel
    (fun a b ha => by
      unfold processLevel
      exact foldl_preserve (fun st => "" ∉ st.C) (processSemester b.1)
        (fun a2 b2 ha2 => foldl_preserve (fun st => "" ∉ st.C)
          (processSubject ("Niveau " ++ b.1 ++ "-" ++ b2.1))
          (fun a3 b3 ha3 => processSubject_nonblank _ a3 b3 ha3) b2.2 _ ha2) b.2 a ha)
  simp [emptyCatalogue]

/-- C7: for every registered course code, its stored credit is the parsed
credit of the first descriptor (in visit order) whose cleaned code equals
it — later descriptors with the same code never change it; a missing or
unconvertible credit field parses to 0. -/
theorem course_credit_first (input : InputData) (c : String)
    (hc : c ∈ (extract_data input).C) :
    ((subjectsOf input).find? fun s => decide (clean_string s.code = c)).map
        (fun s => parseCredit s.credit) =
      some (dget (extract_data input).courseCredits c 0) := by
  have hne : c ≠ "" := fun h => extract_data_C_nonblank input (h ▸ hc)
  have hrooms := roomFold_C_credits input.informatique
    (input.niveau.foldl processLevel emptyCatalogue)
  have hcc : (extract_data input).C =
      (input.niveau.foldl processLevel emptyCatalogue).C := by
    unfold extract_data
    exact hrooms.1
  have hcred : (extract_data input).courseCredits =
      (input.niveau.foldl processLevel emptyCatalogue).courseCredits := by
    unfold extract_data
    exact hrooms.2
  have hc2 : c ∈ (input.niveau.foldl processLevel emptyCatalogue).C := hcc ▸ hc
  obtain ⟨h1, h2⟩ := processLevelList_credit c hne input.niveau emptyCatalogue
    (by simp [emptyCatalogue])
  cases hfind : (subjectsOf input).find? (fun s => decide (clean_string s.code = c)) with
  | none =>
    obtain ⟨hnot, _⟩ := h2 hfind
    exact absurd hc2 hnot
  | some s =>
    obtain ⟨_, hval⟩ := h1 s hfind
    have hmap : Option.map (fun s => parseCredit s.credit) (some s) =
        some (parseCredit s.credit) := rfl
    rw [hmap, hcred, hval]

/-- Witness for `course_credit_first` at `dupInput`: the first descriptor
of course "A" carries credit 2, the second carries 7, and the stored
credit is 2. -/
theorem course_credit_first_witness :
    ((subjectsOf dupInput).find? fun s => decide (clean_string s.code = "A")).map
        (fun s => parseCredit s.credit) =
      some (dget (extract_data dupInput).courseCredits "A" 0) :=
  course_credit_first dupInput "A" (by decide)

/-! ### C5: the objective expression -/

/-- Counterexample to C5 as stated: with the duplicated descriptor input,
the programme of the single class lists course "A" twice, so the built
objective carries the coverage term for the pair twice (evaluating to
2004 under an all-ones assignment), while the sum over the distinct
(Class, Course) pairs described by the specification evaluates to 1002. -/
theorem objective_dup_cex :
    evalTerms (fun _ => 0) (fun _ _ => 1) (objective_terms (extract_data dupInput)) ≠
      specObjective (extract_data dupInput) (fun _ => 0) (fun _ _ => 1) := by
  decide

theorem evalTerms_append (ax : Key → Int) (ay : String → String → Int)
    (ts1 ts2 : List (Int × Var)) :
    evalTerms ax ay (ts1 ++ ts2) = evalTerms ax ay ts1 + evalTerms ax ay ts2 := by
  unfold evalTerms
  rw [List.map_append, List.sum_append]

theorem sum_map_flatMap {α β : Type} (l : List α) (f : α → List β) (g : β → Int) :
    ((l.flatMap f).map g).sum = (l.map fun a => ((f a).map g).sum).sum := by
  induction l with
  | nil => rfl
  | cons a l ih =>
    rw [List.flatMap_cons, List.map_append, List.sum_append, ih, List.map_cons, List.sum_cons]

theorem sum_map_congr {α : Type} (l : List α) (f g : α → Int)
    (h : ∀ a ∈ l, f a = g a) : (l.map f).sum = (l.map g).sum := by
  rw [List.map_congr_left h]

/-- A flatMap whose pieces carry an injective tag of their origin is
duplicate-free. -/
theorem nodup_flatMap_tag {α β : Type} (l : List α) (f : α → List β) (tag : β → α)
    (hl : l.Nodup) (hf : ∀ a ∈ l, (f a).Nodup) (ht : ∀ a ∈ l, ∀ b ∈ f a, tag b = a) :
    (l.flatMap f).Nodup := by
  induction l with
  | nil => simp
  | cons a l ih =>
    rw [List.flatMap_cons, List.nodup_append]
    obtain ⟨hna, hnl⟩ := List.nodup_cons.mp hl
    refine ⟨hf a (by simp), ih hnl (fun a2 ha2 => hf a2 (by simp [ha2]))
      (fun a2 ha2 b hb => ht a2 (by simp [ha2]) b hb), ?_⟩
    intro b hb hb2
    obtain ⟨a2, ha2, hb3⟩ := List.mem_flatMap.mp hb2
    have h1 : tag b = a := ht a (by simp) b hb
    have h2 : tag b = a2 := ht a2 (by simp [ha2]) b hb3
    exact hna (h1 ▸ h2 ▸ ha2)

theorem pairsList_nodup (cat : Catalogue) (hL : cat.L.Nodup)
    (hP : ∀ l ∈ cat.L, (dget cat.programme l []).Nodup) : (pairsList cat).Nodup := by
  unfold pairsList
  apply nodup_flatMap_tag _ _ (fun lc => lc.1) hL
  · intro l hl
    exact List.Nodup.map (fun c1 c2 h => by simpa using h) (hP l hl)
  · intro l hl lc hlc
    obtain ⟨c, hc, rfl⟩ := List.mem_map.mp hlc
    rfl

theorem xKeys_nodup (cat : Catalogue) (hL : cat.L.Nodup) (hR : cat.R.Nodup)
    (hP : ∀ l ∈ cat.L, (dget cat.programme l []).Nodup)
    (hT : ∀ l ∈ cat.L, ∀ c ∈ dget cat.programme l [], (dget cat.courseTeachers c []).Nodup) :
    (xKeys cat).Nodup := by
  unfold xKeys
  apply nodup_flatMap_tag _ _ (fun k => k.1) hL
  · intro l hl
    apply nodup_flatMap_tag _ _ (fun k => k.2.1) (hP l hl)
    · intro c hc
      apply nodup_flatMap_tag _ _ (fun k => k.2.2.1) hR
      · intro r _
        apply nodup_flatMap_tag _ _ (fun k => k.2.2.2.1) (by decide)
        · intro d _
          apply nodup_flatMap_tag _ _ (fun k => k.2.2.2.2.1) (by decide)
          · intro p _
            exact List.Nodup.map (fun t1 t2 h => by simpa using h) (hT l hl c hc)
          · intro p _ k hk
            obtain ⟨t, _, rfl⟩ := List.mem_map.mp hk
            rfl
        · intro d _ k hk
          simp only [List.mem_flatMap, List.mem_map] at hk
          obtain ⟨p, _, t, _, rfl⟩ := hk
          rfl
      · intro r _ k hk
        simp only [List.mem_flatMap, List.mem_map] at hk
        obtain ⟨d, _, p, _, t, _, rfl⟩ := hk
        rfl
    · intro c hc k hk
      simp only [List.mem_flatMap, List.mem_map] at hk
      obtain ⟨r, _, d, _, p, _, t, _, rfl⟩ := hk
      rfl
  · intro l hl k hk
    simp only [List.mem_flatMap, List.mem_map] at hk
    obtain ⟨c, _, r, _, d, _, p, _, t, _, rfl⟩ := hk
    rfl

/-- C5 amended: when the class list, room list, every class programme and
every teacher list are free of duplicate entries, the objective built by
the code evaluates, under every assignment, to the specified sum
`(1000 + credit) * y` over the distinct (Class, Course) pairs plus
`weights[p] * x` over the created assignment variables.  (With duplicated
programme or teacher-list entries the code adds the corresponding terms
once per occurrence, see `objective_dup_cex`.) -/
theorem objective_eval_of_nodup (cat : Catalogue) (ax : Key → Int)
    (ay : String → String → Int) (hL : cat.L.Nodup) (hR : cat.R.Nodup)
    (hP : ∀ l ∈ cat.L, (dget cat.programme l []).Nodup)
    (hT : ∀ l ∈ cat.L, ∀ c ∈ dget cat.programme l [],
      (dget cat.courseTeachers c []).Nodup) :
    evalTerms ax ay (objective_terms cat) = specObjective cat ax ay := by
  unfold objective_terms specObjective evalTerms
  rw [List.map_append, List.sum_append]
  rw [List.dedup_eq_self.mpr (pairsList_nodup cat hL hP),
      List.dedup_eq_self.mpr (xKeys_nodup cat hL hR hP hT)]
  congr 1
  · -- coverage terms
    rw [sum_map_flatMap]
    unfold pairsList
    rw [sum_map_flatMap]
    apply sum_map_congr
    intro l _
    rw [sum_map_flatMap, List.map_map]
    apply sum_map_congr
    intro c _
    simp only [List.map_cons, List.map_nil, List.sum_cons, List.sum_nil, evalVar,
      Function.comp]
    ring
  · -- period-weight terms
    have hxk : xKeys cat = cat.L.flatMap fun l =>
        (dget cat.programme l []).flatMap fun c =>
          cat.R.flatMap fun r =>
            daysD.flatMap fun d =>
              periodsP.flatMap fun p =>
                (dget cat.courseTeachers c []).map fun t => (l, c, r, d, p, t) := rfl
    rw [sum_map_flatMap]
    conv_rhs => rw [hxk]
    rw [sum_map_flatMap]
    apply sum_map_congr
    intro l hl
    rw [sum_map_flatMap, sum_map_flatMap]
    apply sum_map_congr
    intro c hc
    rw [sum_map_flatMap, sum_map_flatMap]
    apply sum_map_congr
    intro r hr
    rw [sum_map_flatMap, sum_map_flatMap]
    apply sum_map_congr
    intro d hd
    rw [sum_map_flatMap, sum_map_flatMap]
    apply sum_map_congr
    intro p hp
    rw [List.flatMap_congr (fun t ht => by
      rw [if_pos ((xKeys_mem_iff cat l c r d p t).mpr ⟨hl, hc, hr, hd, hp, ht⟩)])]
    rw [← List.map_eq_flatMap, List.map_map, List.map_map]
    apply sum_map_congr
    intro t _
    show weights p * evalVar ax ay (Var.xv (l, c, r, d, p, t)) = _
    simp [evalVar]

/-- Witness for `objective_eval_of_nodup` at the duplicate-free sample
catalogue. -/
theorem objective_eval_of_nodup_witness :
    evalTerms (fun _ => 1) (fun _ _ => 1) (objective_terms sampleCat) =
      specObjective sampleCat (fun _ => 1) (fun _ _ => 1) :=
  objective_eval_of_nodup sampleCat (fun _ => 1) (fun _ _ => 1) (by decide) (by decide)
    (by decide) (by decide)

/-! ### Timetable extraction (C1, C9) -/

theorem foldl_preserve_mem {α β : Type} (Q : α → Prop) (f : α → β → α) :
    ∀ (l : List β), (∀ a, ∀ b ∈ l, Q a → Q (f a b)) → ∀ a, Q a → Q (l.foldl f a)
  | [], _, _, ha => ha
  | b :: l, h, a, ha =>
    foldl_preserve_mem Q f l (fun a2 b2 hb2 => h a2 b2 (List.mem_cons_of_mem b hb2)) (f a b)
      (h a b (List.mem_cons_self b l) ha)

theorem dfind_isSome_iff {α β : Type} [DecidableEq α] (m : List (α × β)) (k : α) :
    (dfind m k).isSome ↔ k ∈ m.map Prod.fst := by
  unfold dfind
  have hsome : (Option.map Prod.snd (m.find? fun e => decide (e.1 = k))).isSome
      = (m.find? fun e => decide (e.1 = k)).isSome := by
    cases m.find? fun e => decide (e.1 = k) <;> rfl
  rw [hsome, List.find?_isSome]
  constructor
  · rintro ⟨e, he, hp⟩
    exact List.mem_map.mpr ⟨e, he, by simpa using hp⟩
  · rintro hmem
    obtain ⟨e, he, hk⟩ := List.mem_map.mp hmem
    exact ⟨e, he, by simpa using hk⟩

theorem dfind_mem {α β : Type} [DecidableEq α] (m : List (α × β)) (k : α) (v : β)
    (h : dfind m k = some v) : (k, v) ∈ m := by
  unfold dfind at h
  cases hf : m.find? (fun e => decide (e.1 = k)) with
  | none => rw [hf] at h; simp at h
  | some e =>
    rw [hf] at h
    have he : e ∈ m := List.mem_of_find?_eq_some hf
    have hk : e.1 = k := by simpa using List.find?_some hf
    have hv : e.2 = v := by simpa using h
    have : e = (k, v) := Prod.ext hk hv
    exact this ▸ he

theorem dfind_none_iff {α β : Type} [DecidableEq α] (m : List (α × β)) (k : α) :
    dfind m k = none ↔ m.any (fun e => decide (e.1 = k)) = false := by
  unfold dfind
  have hnone : (Option.map Prod.snd (m.find? fun e => decide (e.1 = k)) = none)
      = ((m.find? fun e => decide (e.1 = k)) = none) := by
    cases m.find? fun e => decide (e.1 = k) <;> simp
  rw [hnone, List.find?_eq_none, List.any_eq_false]

theorem dset_of_dfind_none {α β : Type} [DecidableEq α] (m : List (α × β)) (k : α) (v : β)
    (h : dfind m k = none) : dset m k v = m ++ [(k, v)] := by
  unfold dset
  rw [if_neg]
  rw [(dfind_none_iff m k).mp h]
  simp

theorem dfind_append_of_none {α β : Type} [DecidableEq α] (m1 m2 : List (α × β)) (k : α)
    (h : dfind m1 k = none) : dfind (m1 ++ m2) k = dfind m2 k := by
  unfold dfind at *
  rw [List.find?_append]
  cases hf : m1.find? (fun e => decide (e.1 = k)) with
  | none => rw [Option.none_or]
  | some e => rw [hf] at h; simp at h

theorem dset_map_fst_of_mem {α β : Type} [DecidableEq α] (m : List (α × β)) (k : α) (v : β)
    (h : k ∈ m.map Prod.fst) : (dset m k v).map Prod.fst = m.map Prod.fst := by
  unfold dset
  rw [if_pos]
  · rw [List.map_map]
    apply List.map_congr_left
    intro e _
    by_cases he : e.1 = k
    · simp [he]
    · simp [he]
  · obtain ⟨e, he, hk⟩ := List.mem_map.mp h
    exact List.any_eq_true.mpr ⟨e, he, by simpa using hk⟩

theorem mem_dset {α β : Type} [DecidableEq α] (m : List (α × β)) (k : α) (v : β)
    (hmem : k ∈ m.map Prod.fst) :
    ∀ e ∈ dset m k v, e = (k, v) ∨ e ∈ m := by
  unfold dset
  rw [if_pos]
  · intro e he
    obtain ⟨e2, he2, heq⟩ := List.mem_map.mp he
    by_cases h2 : e2.1 = k
    · rw [if_pos h2] at heq
      exact Or.inl heq.symm
    · rw [if_neg h2] at heq
      exact Or.inr (heq ▸ he2)
  · obtain ⟨e, he, hk⟩ := List.mem_map.mp hmem
    exact List.any_eq_true.mpr ⟨e, he, by simpa using hk⟩

theorem dfind_map_const {α β : Type} [DecidableEq α] (L : List α) (g : β) (k : α)
    (h : k ∈ L) : dfind (L.map fun a => (a, g)) k = some g := by
  induction L with
  | nil => simp at h
  | cons a L ih =>
    rw [List.map_cons]
    unfold dfind
    by_cases ha : a = k
    · rw [List.find?_cons_of_pos _ (by simpa using ha)]
      rfl
    · rw [List.find?_cons_of_neg _ (by simpa using ha)]
      rcases List.mem_cons.mp h with h2 | h2
      · exact absurd h2.symm ha
      · exact ih h2

/-- With pairwise distinct class names the initial timetable is literally
one empty grid per class, in order. -/
theorem initTT_eq (cat : Catalogue) (h : cat.L.Nodup) :
    initTT cat = cat.L.map fun l => (l, emptyGrid) := by
  unfold initTT
  suffices haux : ∀ (L : List String) (tt : TT), L.Nodup → (∀ l ∈ L, dfind tt l = none) →
      L.foldl (fun tt l => dset tt l emptyGrid) tt = tt ++ L.map fun l => (l, emptyGrid) by
    simpa using haux cat.L [] h (fun l _ => rfl)
  intro L
  induction L with
  | nil => intro tt _ _; simp
  | cons a L ih =>
    intro tt hnodup hnone
    rw [List.foldl_cons, dset_of_dfind_none tt a emptyGrid (hnone a (by simp))]
    rw [ih (tt ++ [(a, emptyGrid)]) (List.nodup_cons.mp hnodup).2 ?_]
    · simp
    · intro l hl
      rw [dfind_append_of_none _ _ _ (hnone l (by simp [hl]))]
      have hla : ¬ (a = l) := fun he => (List.nodup_cons.mp hnodup).1 (he ▸ hl)
      unfold dfind
      rw [List.find?_cons_of_neg _ (by simpa using hla)]
      rfl

theorem structTT_initTT (cat : Catalogue) (h : cat.L.Nodup) : StructTT cat (initTT cat) := by
  rw [initTT_eq cat h]
  constructor
  · rw [List.map_map]
    exact List.map_id'' (fun x => rfl) cat.L
  · intro e he
    obtain ⟨l, _, rfl⟩ := List.mem_map.mp he
    constructor
    · show emptyGrid.map Prod.fst = daysD
      unfold emptyGrid
      rw [List.map_map]
      exact List.map_id'' (fun x => rfl) daysD
    · intro de hde
      obtain ⟨d, _, rfl⟩ := List.mem_map.mp hde
      show (periodsP.map fun p => (p, (none : Option Cell))).map Prod.fst = periodsP
      rw [List.map_map]
      exact List.map_id'' (fun x => rfl) periodsP

/-- `setCell` never breaks the shape invariant, for writes whose period is
one of the five periods. -/
theorem setCell_struct (cat : Catalogue) (tt : TT) (l : String) (d p : Nat) (v : Option Cell)
    (hp : p ∈ periodsP) (h : StructTT cat tt) : StructTT cat (setCell tt l d p v) := by
  unfold setCell
  cases hg : dfind tt l with
  | none => exact h
  | some grid =>
    dsimp only
    cases hrow : dfind grid d with
    | none => exact h
    | some row =>
      dsimp only
      obtain ⟨hkeys, hentries⟩ := h
      have hlmem : l ∈ tt.map Prod.fst := (dfind_isSome_iff tt l).mp (by rw [hg]; rfl)
      have hgridmem : (l, grid) ∈ tt := dfind_mem tt l grid hg
      obtain ⟨hgkeys, hgrows⟩ := hentries (l, grid) hgridmem
      have hdmem : d ∈ grid.map Prod.fst := (dfind_isSome_iff grid d).mp (by rw [hrow]; rfl)
      have hrowmem : (d, row) ∈ grid := dfind_mem grid d row hrow
      have hrkeys : row.map Prod.fst = periodsP := hgrows (d, row) hrowmem
      constructor
      · rw [dset_map_fst_of_mem tt l _ hlmem]
        exact hkeys
      · intro e he
        rcases mem_dset tt l _ hlmem e he with rfl | hein
        · constructor
          · show (dset grid d (dset row p v)).map Prod.fst = daysD
            rw [dset_map_fst_of_mem grid d _ hdmem]
            exact hgkeys
          · intro de hde
            rcases mem_dset grid d _ hdmem de hde with rfl | hdin
            · show (dset row p v).map Prod.fst = periodsP
              rw [dset_map_fst_of_mem row p v (hrkeys ▸ hp)]
              exact hrkeys
            · exact hgrows de hdin
        · exact hentries e hein

/-- Writing into a cell whose class and day keys exist sets exactly that
cell. -/
theorem cellGet_setCell_same (tt : TT) (l : String) (d p : Nat) (v : Option Cell)
    (grid : List (Nat × List (Nat × Option Cell))) (row : List (Nat × Option Cell))
    (hg : dfind tt l = some grid) (hrow : dfind grid d = some row) :
    cellGet (setCell tt l d p v) l d p = some v := by
  unfold setCell
  rw [hg]
  dsimp only
  rw [hrow]
  dsimp only
  unfold cellGet
  rw [dfind_dset, if_pos rfl, Option.some_bind, dfind_dset, if_pos rfl, Option.some_bind,
    dfind_dset, if_pos rfl]

/-- Writing into one cell leaves every other cell unchanged. -/
theorem cellGet_setCell_ne (tt : TT) (l : String) (d p : Nat) (v : Option Cell)
    (l2 : String) (d2 p2 : Nat) (h : ¬(l2 = l ∧ d2 = d ∧ p2 = p)) :
    cellGet (setCell tt l d p v) l2 d2 p2 = cellGet tt l2 d2 p2 := by
  unfold setCell
  cases hg : dfind tt l with
  | none => rfl
  | some grid =>
    dsimp only
    cases hrow : dfind grid d with
    | none => rfl
    | some row =>
      dsimp only
      unfold cellGet
      by_cases hl2 : l2 = l
      · subst hl2
        rw [dfind_dset, if_pos rfl, Option.some_bind, hg, Option.some_bind]
        by_cases hd2 : d2 = d
        · subst hd2
          rw [dfind_dset, if_pos rfl, Option.some_bind, hrow, Option.some_bind]
          have hp2 : ¬ (p2 = p) := fun hp2 => h ⟨rfl, rfl, hp2⟩
          rw [dfind_dset, if_neg hp2]
        · rw [dfind_dset, if_neg hd2]
      · rw [dfind_dset, if_neg hl2]

theorem lastWrite?_cons {α : Type} (a : α) (l : List α) :
    lastWrite? (a :: l) = some ((lastWrite? l).getD a) := by
  induction l generalizing a with
  | nil => rfl
  | cons b l ih =>
    show lastWrite? (b :: l) = some ((lastWrite? (b :: l)).getD a)
    rw [ih b]
    rfl

theorem lastWrite?_mem {α : Type} : ∀ (l : List α) (a : α), lastWrite? l = some a → a ∈ l
  | [], a, h => by simp [lastWrite?] at h
  | [b], a, h => by
    have hb : b = a := by
      have : some b = some a := h
      injection this
    exact hb ▸ List.mem_singleton_self b
  | b :: c :: l, a, h => by
    have h2 : lastWrite? (c :: l) = some a := h
    exact List.mem_cons_of_mem b (lastWrite?_mem (c :: l) a h2)

/-- The class grids of a well-shaped timetable. -/
theorem struct_dfind (cat : Catalogue) (tt : TT) (h : StructTT cat tt) (l : String)
    (hl : l ∈ cat.L) :
    ∃ grid, dfind tt l = some grid ∧ grid.map Prod.fst = daysD ∧
      ∀ de ∈ grid, de.2.map Prod.fst = periodsP := by
  obtain ⟨hkeys, hentries⟩ := h
  have hsome : (dfind tt l).isSome := (dfind_isSome_iff tt l).mpr (hkeys ▸ hl)
  cases hg : dfind tt l with
  | none => rw [hg] at hsome; simp at hsome
  | some grid =>
    obtain ⟨h1, h2⟩ := hentries (l, grid) (dfind_mem tt l grid hg)
    exact ⟨grid, rfl, h1, h2⟩

/-- The master lemma of the fill loop: after folding a list of writes over
a well-shaped timetable, each in-range cell holds the last write targeting
it, or its previous value if none does. -/
theorem cellGet_foldl_writes (cat : Catalogue) (l : String) (d p : Nat)
    (hl : l ∈ cat.L) (hd : d ∈ daysD) (hp : p ∈ periodsP) :
    ∀ (ws : List (String × Nat × Nat × Cell)) (tt : TT), StructTT cat tt →
      (∀ w ∈ ws, w.2.2.1 ∈ periodsP) →
      cellGet (ws.foldl (fun tt w => setCell tt w.1 w.2.1 w.2.2.1 (some w.2.2.2)) tt) l d p =
        match lastWrite? ((ws.filter fun w => decide (w.1 = l ∧ w.2.1 = d ∧ w.2.2.1 = p)).map
            fun w => w.2.2.2) with
        | none => cellGet tt l d p
        | some v => some (some v) := by
  intro ws
  induction ws with
  | nil =>
    intro tt _ _
    rfl
  | cons w ws ih =>
    intro tt hstruct hbound
    have hstruct2 : StructTT cat (setCell tt w.1 w.2.1 w.2.2.1 (some w.2.2.2)) :=
      setCell_struct cat tt w.1 w.2.1 w.2.2.1 _ (hbound w (by simp)) hstruct
    have hbound2 : ∀ w2 ∈ ws, w2.2.2.1 ∈ periodsP := fun w2 hw2 => hbound w2 (by simp [hw2])
    rw [List.foldl_cons]
    rw [ih (setCell tt w.1 w.2.1 w.2.2.1 (some w.2.2.2)) hstruct2 hbound2]
    by_cases hm : w.1 = l ∧ w.2.1 = d ∧ w.2.2.1 = p
    · obtain ⟨hm1, hm2, hm3⟩ := hm
      rw [List.filter_cons_of_pos (by simp [hm1, hm2, hm3])]
      rw [List.map_cons, lastWrite?_cons]
      cases hlast : lastWrite? ((ws.filter fun w =>
          decide (w.1 = l ∧ w.2.1 = d ∧ w.2.2.1 = p)).map fun w => w.2.2.2) with
      | some v => rfl
      | none =>
        dsimp only [Option.getD]
        obtain ⟨grid, hg, hgkeys, _⟩ := struct_dfind cat tt hstruct l hl
        have hdsome : (dfind grid d).isSome := (dfind_isSome_iff grid d).mpr (hgkeys ▸ hd)
        cases hrow : dfind grid d with
        | none => rw [hrow] at hdsome; simp at hdsome
        | some row =>
          rw [hm1, hm2, hm3] at *
          exact cellGet_setCell_same tt l d p (some w.2.2.2) grid row hg hrow
    · rw [List.filter_cons_of_neg (by simpa using hm)]
      rw [cellGet_setCell_ne tt w.1 w.2.1 w.2.2.1 (some w.2.2.2) l d p
        (fun h2 => hm ⟨h2.1.symm, h2.2.1.symm, h2.2.2.symm⟩)]

/-- Every write emitted by the fill loop carries in-range components, a
programme course, an eligible teacher, a listed room, and a true solver
value. -/
theorem fillWrites_mem (cat : Catalogue) (sol : Key → Bool) (l : String) (d p : Nat)
    (c t r : String) (h : (l, d, p, (c, t, r)) ∈ fillWrites cat sol) :
    l ∈ cat.L ∧ d ∈ daysD ∧ p ∈ periodsP ∧ c ∈ dget cat.programme l [] ∧
      t ∈ dget cat.courseTeachers c [] ∧ r ∈ cat.R ∧ sol (l, c, r, d, p, t) = true := by
  unfold fillWrites at h
  simp only [List.mem_flatMap] at h
  obtain ⟨l2, hl2, c2, hc2, r2, hr2, d2, hd2, p2, hp2, t2, ht2, hmem⟩ := h
  by_cases hcond : (l2, c2, r2, d2, p2, t2) ∈ xKeys cat ∧ sol (l2, c2, r2, d2, p2, t2) = true
  · rw [if_pos hcond, List.mem_singleton] at hmem
    simp only [Prod.mk.injEq] at hmem
    obtain ⟨rfl, rfl, rfl, rfl, rfl, rfl⟩ := hmem
    exact ⟨hl2, hd2, hp2, hc2, ht2, hr2, hcond.2⟩
  · rw [if_neg hcond] at hmem
    simp at hmem

/-- Every cell of the freshly initialised timetable is present and
empty. -/
theorem cellGet_initTT (cat : Catalogue) (hL : cat.L.Nodup) (l : String) (d p : Nat)
    (hl : l ∈ cat.L) (hd : d ∈ daysD) (hp : p ∈ periodsP) :
    cellGet (initTT cat) l d p = some none := by
  rw [initTT_eq cat hL]
  unfold cellGet
  rw [dfind_map_const cat.L emptyGrid l hl, Option.some_bind]
  unfold emptyGrid
  rw [dfind_map_const daysD _ d hd, Option.some_bind]
  rw [dfind_map_const periodsP _ p hp]

/-- C1 amended: the result-processing phase never aborts — for OPTIMAL or
FEASIBLE status it always returns a timetable — and when several true
assignment variables share a (class, day, period) cell, the cell ends up
holding the write of the last such variable in iteration order; earlier
ones are silently overwritten. -/
theorem timetable_cell_last_write (cat : Catalogue) (sol : Key → Bool) (l : String)
    (d p : Nat) (hL : cat.L.Nodup) (hl : l ∈ cat.L) (hd : d ∈ daysD) (hp : p ∈ periodsP) :
    (generate_timetable cat Status.optimal sol).isSome = true ∧
    cellGet (fillTimetable cat sol) l d p =
      match lastWrite? (cellWrites cat sol l d p) with
      | none => some none
      | some v => some (some v) := by
  constructor
  · simp [generate_timetable]
  · have hbound : ∀ w ∈ fillWrites cat sol, w.2.2.1 ∈ periodsP := by
      intro w hw
      obtain ⟨wl, wd, wp, wc, wt, wr⟩ := w
      exact (fillWrites_mem cat sol wl wd wp wc wt wr hw).2.2.1
    unfold fillTimetable cellWrites
    rw [cellGet_foldl_writes cat l d p hl hd hp (fillWrites cat sol) (initTT cat)
      (structTT_initTT cat hL) hbound]
    rw [cellGet_initTT cat hL l d p hl hd hp]

/-- Witness for `timetable_cell_last_write` at the conflicting-cell
scenario. -/
theorem timetable_cell_last_write_witness :
    (generate_timetable cexCat Status.optimal cexSol).isSome = true ∧
    cellGet (fillTimetable cexCat cexSol) "CL" 1 1 =
      match lastWrite? (cellWrites cexCat cexSol "CL" 1 1) with
      | none => some none
      | some v => some (some v) :=
  timetable_cell_last_write cexCat cexSol "CL" 1 1 (by decide) (by decide) (by decide)
    (by decide)

/-- Counterexample to C1 as stated: `cexSol` sets the two assignment
variables of cell ("CL", 1, 1) both to true, yet `generate_timetable`
returns a timetable (no fatal error of any kind), whose cell silently
keeps the later variable's triple ("B", "tB", "R1"). -/
theorem overlap_silent_overwrite_cex :
    cexSol ("CL", "A", "R1", 1, 1, "tA") = true ∧
    cexSol ("CL", "B", "R1", 1, 1, "tB") = true ∧
    generate_timetable cexCat Status.optimal cexSol = some (fillTimetable cexCat cexSol) ∧
    cellGet (fillTimetable cexCat cexSol) "CL" 1 1 = some (some ("B", "tB", "R1")) := by
  refine ⟨by decide, by decide, rfl, by decide⟩

/-- C9: whenever the result-processing phase returns a timetable, that
timetable has exactly the catalogue classes as keys, each with exactly the
six days and five periods as cells, and every filled cell holds a
(course, teacher, room) triple with the course in the class programme, the
teacher eligible for the course, and the room in the room list. -/
theorem generate_timetable_cells (cat : Catalogue) (status : Status) (sol : Key → Bool)
    (tt : TT) (hL : cat.L.Nodup) (h : generate_timetable cat status sol = some tt) :
    tt.map Prod.fst = cat.L ∧
    (∀ e ∈ tt, e.2.map Prod.fst = daysD ∧ ∀ de ∈ e.2, de.2.map Prod.fst = periodsP) ∧
    (∀ l d p c t r, cellGet tt l d p = some (some (c, t, r)) →
      c ∈ dget cat.programme l [] ∧ t ∈ dget cat.courseTeachers c [] ∧ r ∈ cat.R) := by
  have htt : tt = fillTimetable cat sol := by
    unfold generate_timetable at h
    by_cases hs : status = Status.optimal ∨ status = Status.feasible
    · rw [if_pos hs] at h
      injection h with h2
      exact h2.symm
    · rw [if_neg hs] at h
      simp at h
  subst htt
  have hbound : ∀ w ∈ fillWrites cat sol, w.2.2.1 ∈ periodsP := by
    intro w hw
    obtain ⟨wl, wd, wp, wc, wt, wr⟩ := w
    exact (fillWrites_mem cat sol wl wd wp wc wt wr hw).2.2.1
  have hstruct : StructTT cat (fillTimetable cat sol) := by
    unfold fillTimetable
    exact foldl_preserve_mem (StructTT cat) _ (fillWrites cat sol)
      (fun tt2 w hw hs => setCell_struct cat tt2 w.1 w.2.1 w.2.2.1 _ (hbound w hw) hs)
      (initTT cat) (structTT_initTT cat hL)
  refine ⟨hstruct.1, hstruct.2, ?_⟩
  intro l d p c t r hcell
  have hl : l ∈ cat.L := by
    have hsome : (dfind (fillTimetable cat sol) l).isSome := by
      unfold cellGet at hcell
      cases hdl : dfind (fillTimetable cat sol) l with
      | none => rw [hdl] at hcell; simp at hcell
      | some _ => rfl
    exact hstruct.1 ▸ (dfind_isSome_iff _ l).mp hsome
  obtain ⟨grid, hg, hgkeys, hgrows⟩ := struct_dfind cat _ hstruct l hl
  have hd : d ∈ daysD := by
    unfold cellGet at hcell
    rw [hg, Option.some_bind] at hcell
    have hsome : (dfind grid d).isSome := by
      cases hdd : dfind grid d with
      | none => rw [hdd] at hcell; simp at hcell
      | some _ => rfl
    exact hgkeys ▸ (dfind_isSome_iff grid d).mp hsome
  have hp : p ∈ periodsP := by
    unfold cellGet at hcell
    rw [hg, Option.some_bind] at hcell
    cases hdd : dfind grid d with
    | none => rw [hdd] at hcell; simp at hcell
    | some row =>
      rw [hdd, Option.some_bind] at hcell
      have hrkeys := hgrows (d, row) (dfind_mem grid d row hdd)
      have hsome : (dfind row p).isSome := by rw [hcell]; rfl
      exact hrkeys ▸ (dfind_isSome_iff row p).mp hsome
  have hmaster := cellGet_foldl_writes cat l d p hl hd hp (fillWrites cat sol) (initTT cat)
    (structTT_initTT cat hL) hbound
  unfold fillTimetable at hcell
  rw [hmaster] at hcell
  cases hlast : lastWrite? (((fillWrites cat sol).filter fun w =>
      decide (w.1 = l ∧ w.2.1 = d ∧ w.2.2.1 = p)).map fun w => w.2.2.2) with
  | none =>
    rw [hlast] at hcell
    rw [cellGet_initTT cat hL l d p hl hd hp] at hcell
    simp at hcell
  | some v =>
    rw [hlast] at hcell
    have hv : v = (c, t, r) := by
      have h1 : some (some v) = some (some (c, t, r)) := hcell
      injection h1 with h2
      injection h2
    subst hv
    have hmem := lastWrite?_mem _ _ hlast
    obtain ⟨w, hwfilter, hwval⟩ := List.mem_map.mp hmem
    have hwmem : w ∈ fillWrites cat sol := List.mem_of_mem_filter hwfilter
    have hwpred : w.1 = l ∧ w.2.1 = d ∧ w.2.2.1 = p := by
      simpa using List.of_mem_filter hwfilter
    obtain ⟨wl, wd, wp, wc, wt, wr⟩ := w
    obtain ⟨h1, h2, h3⟩ := hwpred
    simp only at h1 h2 h3
    subst h1
    subst h2
    subst h3
    have hval : (wc, wt, wr) = (c, t, r) := hwval
    simp only [Prod.mk.injEq] at hval
    obtain ⟨rfl, rfl, rfl⟩ := hval
    obtain ⟨_, _, _, hc, ht, hr, _⟩ := fillWrites_mem cat sol wl wd wp wc wt wr hwmem
    exact ⟨hc, ht, hr⟩

/-- Witness for `generate_timetable_cells` at the sample catalogue with an
all-true solver assignment. -/
theorem generate_timetable_cells_witness :
    (fillTimetable sampleCat fun _ => true).map Prod.fst = sampleCat.L ∧
    (∀ e ∈ fillTimetable sampleCat fun _ => true,
      e.2.map Prod.fst = daysD ∧ ∀ de ∈ e.2, de.2.map Prod.fst = periodsP) ∧
    (∀ l d p c t r,
      cellGet (fillTimetable sampleCat fun _ => true) l d p = some (some (c, t, r)) →
      c ∈ dget sampleCat.programme l [] ∧ t ∈ dget sampleCat.courseTeachers c [] ∧
        r ∈ sampleCat.R) :=
  generate_timetable_cells sampleCat Status.optimal (fun _ => true) _ (by decide) rfl

end Projet1
